import Mathlib

/-!
# Verification of the Sudoku solver (board model and solving engine)

Shallow embedding of the solver's two source files:

* `board.rs` — `PossibilitySet`, `SolvingCell`, `Board`, unit iterators;
* `solver.rs` — `examine_row`/`examine_col`/`examine_block` (hidden-single
  assignment per unit), `filter_row`/`filter_col`/`filter_block` (candidate
  elimination), `examine_cell`, `sweep`, the propagation loop of `solve`,
  `case_analysis`, and the public entry point `for_each_solution`.

Digits are `Fin 9` (the internal `0..=8` representation).  Boards are total
functions from coordinates to cells.  The callback-based emission of
solutions is modelled by returning the list of emitted solutions in emission
order.  Rust's in-place mutation becomes explicit state passing; the
`has_update |= ...` accumulation is the `orFold` combinator below.
-/

set_option maxRecDepth 8192

/-- The size (edge length) of a block: 3 (`N_BLOCK` in `board.rs`). -/
def N_BLOCK : Nat := 3

/-- The size (edge length) of a board: 9 (`N` in `board.rs`). -/
def N : Nat := 9

/-- Collection of possible numbers that may fill a cell
(`PossibilitySet` in `board.rs`, a 9-element boolean vector). -/
structure PossibilitySet where
  bits : Fin 9 → Bool
deriving DecidableEq

namespace PossibilitySet

/-- The empty set (`PossibilitySet::EMPTY`). -/
def EMPTY : PossibilitySet := ⟨fun _ => false⟩

/-- The set containing all possibilities (`PossibilitySet::FULL`). -/
def FULL : PossibilitySet := ⟨fun _ => true⟩

/-- The in-range body of `PossibilitySet::unique`: start from all-`false`
and set bit `n`. -/
def uniqueFin (n : Fin 9) : PossibilitySet := ⟨fun k => decide (k = n)⟩

/-- `PossibilitySet::unique(n)`.  The source writes `ns[n] = true` into a
`[bool; 9]` array, which panics when `n >= 9`; the panic is modelled as
`none`. -/
def unique (n : Nat) : Option PossibilitySet :=
  if h : n < 9 then some (uniqueFin ⟨n, h⟩) else none

/-- Number of possibilities in this set (`PossibilitySet::count`):
iterate the boolean array, keep the `true` entries, count them. -/
def count (s : PossibilitySet) : Nat :=
  (((List.finRange 9).map s.bits).filter (fun b => b)).length

/-- Returns the number if `self` is unique (`PossibilitySet::get_unique`):
`some n` exactly when `n` is the only member. -/
def get_unique (s : PossibilitySet) : Option (Fin 9) :=
  match (List.finRange 9).filter (fun n => s.bits n) with
  | [n] => some n
  | _ => none

/-- Iterates possibilities in ascending order (`PossibilitySet::iter`):
enumerate the array and keep the indices of `true` entries. -/
def iter (s : PossibilitySet) : List (Fin 9) :=
  (List.finRange 9).filterMap (fun n => if s.bits n then some n else none)

end PossibilitySet

/-- Cell of an intermediate board used in solving (`SolvingCell` in
`board.rs`). -/
structure SolvingCell where
  /-- Possible values for this cell. -/
  value : PossibilitySet
  /-- Whether this cell's value has changed and elimination is pending. -/
  update : Bool
  /-- Whether this cell has been found unique. -/
  unique : Bool
deriving DecidableEq

namespace SolvingCell

/-- Creates a new cell (`SolvingCell::new`).  The digit argument is already
in the 9-digit domain, so the `PossibilitySet::unique` call in the source
cannot panic and is `uniqueFin` here. -/
def new (v : Option (Fin 9)) : SolvingCell :=
  match v with
  | none => ⟨PossibilitySet.FULL, false, false⟩
  | some n => ⟨PossibilitySet.uniqueFin n, true, true⟩

/-- Whether this cell's value has changed and elimination is pending
(`SolvingCell::has_update`). -/
def has_update (c : SolvingCell) : Bool := c.update

/-- Clears update status (`SolvingCell::acknowledge`).  Defined by the
source but never invoked by the solving engine. -/
def acknowledge (c : SolvingCell) : SolvingCell := { c with update := false }

/-- Whether this cell has possibility to be `n` (`SolvingCell::can_be`). -/
def can_be (c : SolvingCell) (n : Fin 9) : Bool := c.value.bits n

/-- Returns the number if `self` is unique (`SolvingCell::get_unique`). -/
def get_unique (c : SolvingCell) : Option (Fin 9) := c.value.get_unique

/-- Number of possibilities in this cell (`SolvingCell::count`). -/
def count (c : SolvingCell) : Nat := c.value.count

/-- Iterates possibilities (`SolvingCell::iter`). -/
def iter (c : SolvingCell) : List (Fin 9) := c.value.iter

/-- Remove the given possibility (`SolvingCell::remove`).  Returns the new
cell together with `true` iff `n` was previously contained in `self`; on a
hit the bit is cleared and the dirty flag is set. -/
def remove (c : SolvingCell) (n : Fin 9) : SolvingCell × Bool :=
  if c.value.bits n then
    (⟨⟨fun k => if k = n then false else c.value.bits k⟩, true, c.unique⟩, true)
  else (c, false)

end SolvingCell

/-- 9x9 collection of cells (`Board<T>` in `board.rs`). -/
@[ext]
structure Board (T : Type) where
  cells : Fin 9 → Fin 9 → T
deriving DecidableEq

/-- Functional update of one cell of a board (the Rust assignment
`board.0[i][j] = c`). -/
def Board.set (b : Board T) (i j : Fin 9) (c : T) : Board T :=
  ⟨fun i' j' => if i' = i ∧ j' = j then c else b.cells i' j'⟩

/-- Convert to a final board if `self` is a valid solution
(`Board::<SolvingCell>::to_solution`): succeeds iff `get_unique` succeeds
for every cell, in which case every output cell is that unique digit. -/
def Board.to_solution (b : Board SolvingCell) : Option (Board (Fin 9)) :=
  if h : ∀ i j, ((b.cells i j).get_unique).isSome then
    some ⟨fun i j => ((b.cells i j).get_unique).get (h i j)⟩
  else none

/-! ## The solving engine (`solver.rs`): one step per unit scan

Rust's `has_update |= f(&mut board, x)` loop pattern: fold a step function
over an index list, threading the board and or-ing the returned flags. -/

/-- Fold a board-transforming step over a list, accumulating the "has
update" flag with `||` (the `has_update |=` pattern of `solver.rs`). -/
def orFold (g : Board SolvingCell → α → Board SolvingCell × Bool)
    (l : List α) (st : Board SolvingCell × Bool) : Board SolvingCell × Bool :=
  l.foldl (fun st x => let r := g st.1 x; (r.1, st.2 || r.2)) st

/-- One digit `n` of `examine_row` (`solver.rs`): find the cells of row `i`
that can be `n`; if there is exactly one such cell and it is not already
unique, make it unique (the `debug_assert_eq` branch leaves the board
unchanged, and its assertion `n == n2` cannot fail since the cell both
contains `n` and is a singleton). -/
def exRowStep (i : Fin 9) (b : Board SolvingCell) (n : Fin 9) :
    Board SolvingCell × Bool :=
  match (List.finRange 9).filter (fun j => (b.cells i j).can_be n) with
  | [j] =>
    match (b.cells i j).get_unique with
    | none => (b.set i j (SolvingCell.new (some n)), true)
    | some _ => (b, false)
  | _ => (b, false)

/-- `examine_row` (`solver.rs`): the loop `for n in 0..N` over `exRowStep`. -/
def examine_row (b : Board SolvingCell) (i : Fin 9) : Board SolvingCell × Bool :=
  orFold (exRowStep i) (List.finRange 9) (b, false)

/-- One digit `n` of `examine_col` (`solver.rs`). -/
def exColStep (j : Fin 9) (b : Board SolvingCell) (n : Fin 9) :
    Board SolvingCell × Bool :=
  match (List.finRange 9).filter (fun i => (b.cells i j).can_be n) with
  | [i] =>
    match (b.cells i j).get_unique with
    | none => (b.set i j (SolvingCell.new (some n)), true)
    | some _ => (b, false)
  | _ => (b, false)

/-- `examine_col` (`solver.rs`). -/
def examine_col (b : Board SolvingCell) (j : Fin 9) : Board SolvingCell × Bool :=
  orFold (exColStep j) (List.finRange 9) (b, false)

/-- The block-row index `i / N_BLOCK` of a coordinate (the `top`/`left`
computation of `filter_block` divided by `N_BLOCK`). -/
def blockOf (i : Fin 9) : Fin 3 := ⟨i.val / 3, by omega⟩

/-- The coordinate `N_BLOCK * b + r` inside block-row `b`. -/
def blockCell (b r : Fin 3) : Fin 9 :=
  ⟨3 * b.val + r.val, by have hb := b.isLt; have hr := r.isLt; omega⟩

/-- The nine coordinates of the block with block indices `bi, bj`, in the
source's scan order (row by row).  This is the iteration `for i2 in
i..(i + N_BLOCK) { for j2 in j..(j + N_BLOCK) }` of `examine_block`. -/
def blockCellList (bi bj : Fin 3) : List (Fin 9 × Fin 9) :=
  (List.finRange 3).flatMap
    (fun r => (List.finRange 3).map (fun c => (blockCell bi r, blockCell bj c)))

/-- One digit `n` of `examine_block` (`solver.rs`). -/
def exBlockStep (bi bj : Fin 3) (b : Board SolvingCell) (n : Fin 9) :
    Board SolvingCell × Bool :=
  match (blockCellList bi bj).filter (fun p => (b.cells p.1 p.2).can_be n) with
  | [p] =>
    match (b.cells p.1 p.2).get_unique with
    | none => (b.set p.1 p.2 (SolvingCell.new (some n)), true)
    | some _ => (b, false)
  | _ => (b, false)

/-- `examine_block` (`solver.rs`), the block being named by its block
indices (the source passes the top-left coordinates `i, j`, always
multiples of `N_BLOCK`). -/
def examine_block (b : Board SolvingCell) (bi bj : Fin 3) : Board SolvingCell × Bool :=
  orFold (exBlockStep bi bj) (List.finRange 9) (b, false)

/-- One peer `j2` of `filter_row` (`solver.rs`): skip `j2 == j`, otherwise
remove `n` from the cell `(i, j2)`. -/
def filterRowStep (i j n : Fin 9) (b : Board SolvingCell) (j2 : Fin 9) :
    Board SolvingCell × Bool :=
  if j = j2 then (b, false)
  else
    let r := (b.cells i j2).remove n
    (b.set i j2 r.1, r.2)

/-- `filter_row` (`solver.rs`). -/
def filter_row (b : Board SolvingCell) (i j n : Fin 9) : Board SolvingCell × Bool :=
  orFold (filterRowStep i j n) (List.finRange 9) (b, false)

/-- One peer `i2` of `filter_col` (`solver.rs`). -/
def filterColStep (i j n : Fin 9) (b : Board SolvingCell) (i2 : Fin 9) :
    Board SolvingCell × Bool :=
  if i = i2 then (b, false)
  else
    let r := (b.cells i2 j).remove n
    (b.set i2 j r.1, r.2)

/-- `filter_col` (`solver.rs`). -/
def filter_col (b : Board SolvingCell) (i j n : Fin 9) : Board SolvingCell × Bool :=
  orFold (filterColStep i j n) (List.finRange 9) (b, false)

/-- One peer of `filter_block` (`solver.rs`): the source skips the whole
row `i2 == i` and, inside it, the column `j2 == j`, so a removal happens
exactly when `i2 ≠ i` and `j2 ≠ j`. -/
def filterBlockStep (i j n : Fin 9) (b : Board SolvingCell) (p : Fin 9 × Fin 9) :
    Board SolvingCell × Bool :=
  if p.1 = i ∨ p.2 = j then (b, false)
  else
    let r := (b.cells p.1 p.2).remove n
    (b.set p.1 p.2 r.1, r.2)

/-- `filter_block` (`solver.rs`): the bounds `top = i / N_BLOCK * N_BLOCK`
etc. make the scanned cells exactly `blockCellList (blockOf i) (blockOf j)`. -/
def filter_block (b : Board SolvingCell) (i j n : Fin 9) : Board SolvingCell × Bool :=
  orFold (filterBlockStep i j n) (blockCellList (blockOf i) (blockOf j)) (b, false)

/-- `examine_cell` (`solver.rs`): nothing to do unless the cell has a
pending update and has collapsed to a unique digit `n`; in that case
eliminate `n` from the row, the column and the block of the cell (the
source's non-short-circuiting `|` evaluates all three in this order). -/
def examine_cell (b : Board SolvingCell) (i j : Fin 9) : Board SolvingCell × Bool :=
  if (b.cells i j).has_update = false then (b, false)
  else
    match (b.cells i j).get_unique with
    | none => (b, false)
    | some n =>
      let r1 := filter_row b i j n
      let r2 := filter_col r1.1 i j n
      let r3 := filter_block r2.1 i j n
      (r3.1, (r1.2 || r2.2) || r3.2)

/-- The nine block-index pairs, in the source's order (`for i in 0..N_BLOCK
{ for j in 0..N_BLOCK }`). -/
def blockIdxList : List (Fin 3 × Fin 3) :=
  (List.finRange 3).flatMap (fun bi => (List.finRange 3).map (fun bj => (bi, bj)))

/-- All 81 coordinates in row-major order (`for i in 0..N { for j in 0..N }`). -/
def allCellList : List (Fin 9 × Fin 9) :=
  (List.finRange 9).flatMap (fun i => (List.finRange 9).map (fun j => (i, j)))

/-- `sweep` (`solver.rs`): examine all rows, all columns, all blocks, then
all cells, or-ing every reported update into the result flag. -/
def sweep (b : Board SolvingCell) : Board SolvingCell × Bool :=
  let s1 := orFold examine_row (List.finRange 9) (b, false)
  let s2 := orFold examine_col (List.finRange 9) s1
  let s3 := orFold (fun b p => examine_block b p.1 p.2) blockIdxList s2
  orFold (fun b p => examine_cell b p.1 p.2) allCellList s3

/-- The sweep pass as claim C3 describes it: only naked-single elimination
(the `examine_cell` scan over all cells, removing a pending singleton's
digit from its peers), with no other inference technique.  Claim-side
definition, to be compared with the source's `sweep`. -/
def nakedOnlySweep (b : Board SolvingCell) : Board SolvingCell × Bool :=
  orFold (fun b p => examine_cell b p.1 p.2) allCellList (b, false)

/-- The hidden-single phase of `sweep`: the `examine_row`, `examine_col`
and `examine_block` scans (each unit pinning a digit that has exactly one
candidate cell left).  Claim-side decomposition used to state the amended
claim C3. -/
def hiddenSinglePass (b : Board SolvingCell) : Board SolvingCell × Bool :=
  let s1 := orFold examine_row (List.finRange 9) (b, false)
  let s2 := orFold examine_col (List.finRange 9) s1
  orFold (fun b p => examine_block b p.1 p.2) blockIdxList s2


/-! ## Basic facts about possibility sets and cells -/

namespace PossibilitySet

lemma ext_bits {s t : PossibilitySet} (h : ∀ n, s.bits n = t.bits n) : s = t := by
  cases s; cases t
  simp only [PossibilitySet.mk.injEq]
  funext n
  exact h n

lemma count_eq_length_filter (s : PossibilitySet) :
    s.count = ((List.finRange 9).filter s.bits).length := by
  unfold count
  rw [List.filter_map]
  simp [Function.comp_def]

lemma iter_eq_filter (s : PossibilitySet) :
    s.iter = (List.finRange 9).filter s.bits := by
  unfold iter
  have aux : ∀ l : List (Fin 9),
      l.filterMap (fun n => if s.bits n then some n else none) = l.filter s.bits := by
    intro l
    induction l with
    | nil => rfl
    | cons a t ih =>
      cases h : s.bits a <;> simp [List.filterMap_cons, List.filter_cons, h, ih]
  exact aux _

lemma mem_iter (s : PossibilitySet) (n : Fin 9) : n ∈ s.iter ↔ s.bits n = true := by
  rw [iter_eq_filter, List.mem_filter]
  simp [List.mem_finRange]

lemma iter_pairwise (s : PossibilitySet) : s.iter.Pairwise (· < ·) := by
  rw [iter_eq_filter]
  exact (List.pairwise_lt_finRange 9).sublist (List.filter_sublist _)

lemma iter_nodup (s : PossibilitySet) : s.iter.Nodup := by
  rw [iter_eq_filter]
  exact (List.nodup_finRange 9).filter _

lemma filter_bits_eq_singleton_iff (s : PossibilitySet) (n : Fin 9) :
    (List.finRange 9).filter s.bits = [n] ↔
      s.bits n = true ∧ ∀ k, s.bits k = true → k = n := by
  constructor
  · intro h
    refine ⟨?_, ?_⟩
    · have hn : n ∈ (List.finRange 9).filter s.bits := by
        rw [h]; exact List.mem_singleton_self n
      exact (List.mem_filter.mp hn).2
    · intro k hk
      have hmem : k ∈ (List.finRange 9).filter s.bits :=
        List.mem_filter.mpr ⟨List.mem_finRange k, hk⟩
      rw [h] at hmem
      exact List.mem_singleton.mp hmem
  · rintro ⟨hn, huniq⟩
    have hnodup : ((List.finRange 9).filter s.bits).Nodup :=
      (List.nodup_finRange 9).filter _
    have hmem : ∀ k, k ∈ (List.finRange 9).filter s.bits ↔ k = n := by
      intro k
      rw [List.mem_filter]
      constructor
      · rintro ⟨-, hk⟩
        exact huniq k hk
      · rintro rfl
        exact ⟨List.mem_finRange _, hn⟩
    rcases hfl : (List.finRange 9).filter s.bits with - | ⟨a, - | ⟨b, t⟩⟩
    · exfalso
      have hn' := (hmem n).mpr rfl
      rw [hfl] at hn'
      exact List.not_mem_nil n hn'
    · have ha := (hmem a).mp (by rw [hfl]; exact List.mem_cons_self a [])
      rw [ha]
    · exfalso
      have ha : a = n := by
        have := (hmem a).mp (by rw [hfl]; exact List.mem_cons_self ..)
        exact this
      have hb : b = n := by
        have := (hmem b).mp
          (by rw [hfl]; exact List.mem_cons_of_mem _ (List.mem_cons_self ..))
        exact this
      rw [hfl, ha, hb] at hnodup
      exact (List.nodup_cons.mp hnodup).1 (List.mem_cons_self ..)

lemma get_unique_eq_some_iff (s : PossibilitySet) (n : Fin 9) :
    s.get_unique = some n ↔ s.bits n = true ∧ ∀ k, s.bits k = true → k = n := by
  rw [← filter_bits_eq_singleton_iff]
  unfold get_unique
  rcases hfl : (List.finRange 9).filter s.bits with - | ⟨a, - | ⟨b, t⟩⟩ <;> simp

lemma get_unique_eq_none_iff (s : PossibilitySet) :
    s.get_unique = none ↔ s.count ≠ 1 := by
  rw [count_eq_length_filter]
  unfold get_unique
  rcases hfl : (List.finRange 9).filter s.bits with - | ⟨a, - | ⟨b, t⟩⟩ <;> simp

lemma count_le_of_subset {s t : PossibilitySet}
    (h : ∀ n, s.bits n = true → t.bits n = true) : s.count ≤ t.count := by
  rw [count_eq_length_filter, count_eq_length_filter]
  exact (List.monotone_filter_right _ h).length_le

lemma count_lt_of_ssubset {s t : PossibilitySet}
    (h : ∀ n, s.bits n = true → t.bits n = true) (hne : s ≠ t) :
    s.count < t.count := by
  have hsub := List.monotone_filter_right (List.finRange 9) h
  rw [count_eq_length_filter, count_eq_length_filter]
  rcases lt_or_eq_of_le hsub.length_le with hlt | heq
  · exact hlt
  · exfalso
    apply hne
    have hfeq := hsub.eq_of_length heq
    apply ext_bits
    intro n
    have hn : n ∈ (List.finRange 9).filter s.bits ↔ n ∈ (List.finRange 9).filter t.bits := by
      rw [hfeq]
    rw [List.mem_filter, List.mem_filter] at hn
    simp only [List.mem_finRange, true_and] at hn
    cases hs : s.bits n <;> cases ht : t.bits n <;> simp_all

lemma two_le_count {s : PossibilitySet} {n : Fin 9}
    (hn : s.bits n = true) (hu : s.get_unique = none) : 2 ≤ s.count := by
  have h1 : s.count ≠ 1 := (get_unique_eq_none_iff s).mp hu
  have h0 : 0 < s.count := by
    rw [count_eq_length_filter]
    have hm : n ∈ (List.finRange 9).filter s.bits :=
      List.mem_filter.mpr ⟨List.mem_finRange n, hn⟩
    exact List.length_pos.mpr (List.ne_nil_of_mem hm)
  omega

lemma uniqueFin_bits_self (n : Fin 9) : (uniqueFin n).bits n = true := by
  simp [uniqueFin]

lemma get_unique_uniqueFin (n : Fin 9) : (uniqueFin n).get_unique = some n := by
  rw [get_unique_eq_some_iff]
  refine ⟨uniqueFin_bits_self n, fun k hk => ?_⟩
  simpa [uniqueFin] using hk

lemma eq_uniqueFin_of_get_unique {s : PossibilitySet} {n : Fin 9}
    (h : s.get_unique = some n) : s = uniqueFin n := by
  rcases (get_unique_eq_some_iff s n).mp h with ⟨hn, hu⟩
  apply ext_bits
  intro k
  by_cases hk : s.bits k = true
  · have := hu k hk
    subst this
    simp [uniqueFin, hk]
  · have hkn : k ≠ n := by
      rintro rfl
      exact hk hn
    simp only [Bool.not_eq_true] at hk
    simp [uniqueFin, hk, hkn]

lemma count_eq_one_iff (s : PossibilitySet) :
    s.count = 1 ↔ ∃ n, s.get_unique = some n := by
  constructor
  · intro h
    rcases ho : s.get_unique with - | n
    · rw [get_unique_eq_none_iff] at ho
      exact absurd h ho
    · exact ⟨n, rfl⟩
  · rintro ⟨n, hn⟩
    by_contra hne
    have h0 := (get_unique_eq_none_iff s).mpr hne
    rw [hn] at h0
    cases h0

end PossibilitySet

namespace SolvingCell

lemma remove_of_not_mem {c : SolvingCell} {n : Fin 9}
    (h : c.value.bits n = false) : c.remove n = (c, false) := by
  simp [remove, h]

lemma remove_of_mem {c : SolvingCell} {n : Fin 9} (h : c.value.bits n = true) :
    c.remove n =
      (⟨⟨fun k => if k = n then false else c.value.bits k⟩, true, c.unique⟩, true) := by
  simp [remove, h]

lemma new_some_value (n : Fin 9) :
    (new (some n)).value = PossibilitySet.uniqueFin n := rfl

lemma new_some_get_unique (n : Fin 9) :
    (new (some n)).get_unique = some n :=
  PossibilitySet.get_unique_uniqueFin n

lemma eq_new_some_of_get_unique {c : SolvingCell} {n : Fin 9}
    (h : c.get_unique = some n) : c.value = PossibilitySet.uniqueFin n :=
  PossibilitySet.eq_uniqueFin_of_get_unique h

end SolvingCell

namespace Board

lemma cells_set_same (b : Board T) (i j : Fin 9) (c : T) :
    (b.set i j c).cells i j = c := by
  simp [Board.set]

lemma cells_set_of_ne (b : Board T) (i j : Fin 9) (c : T) {i' j' : Fin 9}
    (h : ¬(i' = i ∧ j' = j)) : (b.set i j c).cells i' j' = b.cells i' j' := by
  simp [Board.set, h]

lemma set_self (b : Board T) (i j : Fin 9) : b.set i j (b.cells i j) = b := by
  ext i' j'
  by_cases h : i' = i ∧ j' = j
  · rcases h with ⟨rfl, rfl⟩
    simp [Board.set]
  · simp [Board.set, h]

lemma set_ne_of_cell_ne {b : Board T} {i j : Fin 9} {c : T}
    (h : c ≠ b.cells i j) : b.set i j c ≠ b := by
  intro heq
  apply h
  rw [← cells_set_same b i j c]
  rw [heq]

end Board

/-! ## Shrinking order on cells and boards

Every mutation the engine performs only removes possibilities and only
turns flags on.  `Below` captures this: the first argument is the later
(smaller) state. -/

/-- `s` is a subset of `t`. -/
def PossibilitySet.Sub (s t : PossibilitySet) : Prop :=
  ∀ n, s.bits n = true → t.bits n = true

/-- Cell evolution order: possibilities shrink, the `update` and `unique`
flags never go from `true` to `false`. -/
def SolvingCell.Below (c c' : SolvingCell) : Prop :=
  c.value.Sub c'.value ∧ (c'.update = true → c.update = true) ∧
    (c'.unique = true → c.unique = true)

/-- Board evolution order: cellwise `SolvingCell.Below`. -/
def Board.Below (b b' : Board SolvingCell) : Prop :=
  ∀ i j, (b.cells i j).Below (b'.cells i j)

lemma cell_below_refl (c : SolvingCell) : c.Below c :=
  ⟨fun _ h => h, id, id⟩

lemma cell_below_trans {c1 c2 c3 : SolvingCell}
    (h12 : c1.Below c2) (h23 : c2.Below c3) : c1.Below c3 :=
  ⟨fun n h => h23.1 n (h12.1 n h), fun h => h12.2.1 (h23.2.1 h),
    fun h => h12.2.2 (h23.2.2 h)⟩

lemma board_below_refl (b : Board SolvingCell) : b.Below b :=
  fun _ _ => cell_below_refl _

lemma board_below_trans {b1 b2 b3 : Board SolvingCell}
    (h12 : b1.Below b2) (h23 : b2.Below b3) : b1.Below b3 :=
  fun i j => cell_below_trans (h12 i j) (h23 i j)

/-! ## Measures -/

/-- The total number of `true` bits across the 81 cells. -/
def totalCount (b : Board SolvingCell) : Nat :=
  Finset.univ.sum (fun p : Fin 9 × Fin 9 => (b.cells p.1 p.2).count)

/-- Weight of one cell: its possibility count plus one for each flag still
`false`.  Strictly decreases whenever a cell changes along `Below`. -/
def cellWeight (c : SolvingCell) : Nat :=
  c.count + (if c.update then 0 else 1) + (if c.unique then 0 else 1)

/-- Total weight of a board; the termination measure of the search. -/
def boardWeight (b : Board SolvingCell) : Nat :=
  Finset.univ.sum (fun p : Fin 9 × Fin 9 => cellWeight (b.cells p.1 p.2))

lemma SolvingCell.count_le_of_below {c c' : SolvingCell} (h : c.Below c') :
    c.count ≤ c'.count :=
  PossibilitySet.count_le_of_subset h.1

lemma SolvingCell.cellWeight_le_of_below {c c' : SolvingCell} (h : c.Below c') :
    cellWeight c ≤ cellWeight c' := by
  rcases h with ⟨hv, hu, hq⟩
  have h1 : c.count ≤ c'.count := PossibilitySet.count_le_of_subset hv
  have h2 : (if c.update then 0 else 1) ≤ (if c'.update then (0 : Nat) else 1) := by
    cases hcu : c'.update
    · cases c.update <;> simp
    · rw [hu hcu]
  have h3 : (if c.unique then 0 else 1) ≤ (if c'.unique then (0 : Nat) else 1) := by
    cases hcq : c'.unique
    · cases c.unique <;> simp
    · rw [hq hcq]
  unfold cellWeight
  omega

lemma SolvingCell.cellWeight_lt_of_below_ne {c c' : SolvingCell}
    (h : c.Below c') (hne : c ≠ c') : cellWeight c < cellWeight c' := by
  rcases h with ⟨hv, hu, hq⟩
  have h2 : (if c.update then 0 else 1) ≤ (if c'.update then (0 : Nat) else 1) := by
    cases hcu' : c'.update
    · cases c.update <;> simp
    · rw [hu hcu']
  have h3 : (if c.unique then 0 else 1) ≤ (if c'.unique then (0 : Nat) else 1) := by
    cases hcq' : c'.unique
    · cases c.unique <;> simp
    · rw [hq hcq']
  by_cases hval : c.value = c'.value
  · have h1e : c.count = c'.count := by unfold SolvingCell.count; rw [hval]
    have hflag : (c.update = true ∧ c'.update = false) ∨
        (c.unique = true ∧ c'.unique = false) := by
      by_contra hcon
      push_neg at hcon
      obtain ⟨hc1, hc2⟩ := hcon
      apply hne
      obtain ⟨v1, u1, q1⟩ := c
      obtain ⟨v2, u2, q2⟩ := c'
      simp only at hval hu hq hc1 hc2
      subst hval
      cases u1 <;> cases u2 <;> cases q1 <;> cases q2 <;> simp_all
    unfold cellWeight
    rcases hflag with ⟨hcu, hcu'⟩ | ⟨hcq, hcq'⟩
    · rw [hcu, hcu']
      simp
      omega
    · rw [hcq, hcq']
      simp
      omega
  · have h1s : c.count < c'.count := PossibilitySet.count_lt_of_ssubset hv hval
    unfold cellWeight
    omega

lemma Board.exists_cell_ne {b b' : Board SolvingCell} (h : b ≠ b') :
    ∃ i j, b.cells i j ≠ b'.cells i j := by
  by_contra hcon
  push_neg at hcon
  apply h
  ext i j
  exact hcon i j

lemma totalCount_le_of_below {b b' : Board SolvingCell} (h : b.Below b') :
    totalCount b ≤ totalCount b' :=
  Finset.sum_le_sum (fun p _ => SolvingCell.count_le_of_below (h p.1 p.2))

lemma boardWeight_le_of_below {b b' : Board SolvingCell} (h : b.Below b') :
    boardWeight b ≤ boardWeight b' :=
  Finset.sum_le_sum (fun p _ => SolvingCell.cellWeight_le_of_below (h p.1 p.2))

lemma boardWeight_lt_of_below_ne {b b' : Board SolvingCell} (h : b.Below b')
    (hne : b ≠ b') : boardWeight b < boardWeight b' := by
  obtain ⟨i, j, hij⟩ := Board.exists_cell_ne hne
  exact Finset.sum_lt_sum
    (fun p _ => SolvingCell.cellWeight_le_of_below (h p.1 p.2))
    ⟨(i, j), Finset.mem_univ _, SolvingCell.cellWeight_lt_of_below_ne (h i j) hij⟩

/-! ## The step relation of a sweep scan

`StepsTo b b' u` relates a board `b` to the board `b'` and flag `u` a scan
step produced from it: the board only shrinks, the flag reports exactly
whether the board changed, and a change strictly decreases the number of
possibility bits. -/

/-- Result relation of one scan step (or one whole scan). -/
def StepsTo (b b' : Board SolvingCell) (u : Bool) : Prop :=
  b'.Below b ∧ (u = true ↔ b' ≠ b) ∧ (b' ≠ b → totalCount b' < totalCount b)

lemma stepsTo_refl (b : Board SolvingCell) : StepsTo b b false := by
  refine ⟨board_below_refl b, ?_, ?_⟩
  · constructor
    · intro h; cases h
    · intro h; exact absurd rfl h
  · intro h; exact absurd rfl h

lemma stepsTo_comp {b b1 b2 : Board SolvingCell} {u1 u2 : Bool}
    (h1 : StepsTo b b1 u1) (h2 : StepsTo b1 b2 u2) : StepsTo b b2 (u1 || u2) := by
  obtain ⟨hb1, hf1, hs1⟩ := h1
  obtain ⟨hb2, hf2, hs2⟩ := h2
  have hb : b2.Below b := board_below_trans hb2 hb1
  have hstrict : b2 ≠ b → totalCount b2 < totalCount b := by
    intro hne
    by_cases h21 : b2 = b1
    · subst h21
      exact hs1 hne
    · exact lt_of_lt_of_le (hs2 h21) (totalCount_le_of_below hb1)
  refine ⟨hb, ?_, hstrict⟩
  constructor
  · intro hu
    rcases Bool.or_eq_true_iff.mp hu with hu1 | hu2
    · -- the first step already changed the board
      have hne1 := hf1.mp hu1
      by_cases h21 : b2 = b1
      · rw [h21]; exact hne1
      · intro hb2b
        have := hs2 h21
        have hle := totalCount_le_of_below hb1
        have h1lt := hs1 hne1
        rw [hb2b] at this
        omega
    · have hne2 := hf2.mp hu2
      intro hb2b
      have := hs2 hne2
      have h1le : totalCount b1 ≤ totalCount b := totalCount_le_of_below hb1
      rw [hb2b] at this
      omega
  · intro hne
    by_cases h21 : b2 = b1
    · subst h21
      have : b2 ≠ b := hne
      rw [hf1.mpr this]
      simp
    · rw [hf2.mpr h21]
      simp

/-- A scan step family all of whose members satisfy `StepsTo`. -/
def SweepStep (g : Board SolvingCell → α → Board SolvingCell × Bool) : Prop :=
  ∀ b x, StepsTo b (g b x).1 (g b x).2

lemma orFold_nil (g : Board SolvingCell → α → Board SolvingCell × Bool)
    (st : Board SolvingCell × Bool) : orFold g [] st = st := rfl

lemma orFold_cons (g : Board SolvingCell → α → Board SolvingCell × Bool)
    (x : α) (l : List α) (b : Board SolvingCell) (u : Bool) :
    orFold g (x :: l) (b, u) = orFold g l ((g b x).1, u || (g b x).2) := rfl

lemma orFold_init_flag (g : Board SolvingCell → α → Board SolvingCell × Bool) :
    ∀ (l : List α) (b : Board SolvingCell) (u : Bool),
      orFold g l (b, u) =
        ((orFold g l (b, false)).1, u || (orFold g l (b, false)).2) := by
  intro l
  induction l with
  | nil =>
    intro b u
    simp [orFold]
  | cons x xs ih =>
    intro b u
    rw [orFold_cons, orFold_cons]
    rw [ih ((g b x).1) (u || (g b x).2), ih ((g b x).1) (false || (g b x).2)]
    simp [Bool.or_assoc]

lemma orFold_stepsTo {g : Board SolvingCell → α → Board SolvingCell × Bool}
    (hg : SweepStep g) :
    ∀ (l : List α) (b : Board SolvingCell),
      StepsTo b (orFold g l (b, false)).1 (orFold g l (b, false)).2 := by
  intro l
  induction l with
  | nil =>
    intro b
    exact stepsTo_refl b
  | cons x xs ih =>
    intro b
    rw [orFold_cons, Bool.false_or]
    rw [orFold_init_flag g xs ((g b x).1) ((g b x).2)]
    exact stepsTo_comp (hg b x) (ih ((g b x).1))

lemma orFold_chain {g : Board SolvingCell → α → Board SolvingCell × Bool}
    (hg : SweepStep g) {b : Board SolvingCell} {st : Board SolvingCell × Bool}
    (h : StepsTo b st.1 st.2) (l : List α) :
    StepsTo b (orFold g l st).1 (orFold g l st).2 := by
  obtain ⟨b1, u1⟩ := st
  simp only at h
  rw [orFold_init_flag g l b1 u1]
  exact stepsTo_comp h (orFold_stepsTo hg l b1)

lemma orFold_fixed {g : Board SolvingCell → α → Board SolvingCell × Bool}
    (hg : SweepStep g) :
    ∀ (l : List α) (b : Board SolvingCell),
      orFold g l (b, false) = (b, false) → ∀ x ∈ l, g b x = (b, false) := by
  intro l
  induction l with
  | nil =>
    intro b hfix x hx
    cases hx
  | cons y ys ih =>
    intro b hfix x hx
    rw [orFold_cons, Bool.false_or] at hfix
    rw [orFold_init_flag g ys ((g b y).1) ((g b y).2)] at hfix
    rw [Prod.mk.injEq] at hfix
    obtain ⟨hb, hu⟩ := hfix
    rw [Bool.or_eq_false_iff] at hu
    obtain ⟨hgy, hrest⟩ := hu
    have hgy1 : (g b y).1 = b := by
      by_contra hne
      have hf := ((hg b y).2.1).mpr hne
      rw [hgy] at hf
      cases hf
    rcases List.mem_cons.mp hx with rfl | hxs
    · exact Prod.ext_iff.mpr ⟨hgy1, hgy⟩
    · apply ih b ?_ x hxs
      rw [hgy1] at hb hrest
      exact Prod.ext_iff.mpr ⟨hb, hrest⟩

lemma PossibilitySet.count_uniqueFin (n : Fin 9) :
    (PossibilitySet.uniqueFin n).count = 1 :=
  (PossibilitySet.count_eq_one_iff _).mpr ⟨n, PossibilitySet.get_unique_uniqueFin n⟩

/-- Pinning a cell that contains `n` but is not yet unique (the assignment
`board.0[i][j] = SolvingCell::new(Some(n))` of the `examine_*` functions)
is a productive scan step. -/
lemma stepsTo_assign {b : Board SolvingCell} {i j n : Fin 9}
    (hcan : (b.cells i j).can_be n = true)
    (hun : (b.cells i j).get_unique = none) :
    StepsTo b (b.set i j (SolvingCell.new (some n))) true := by
  have hcan' : (b.cells i j).value.bits n = true := hcan
  have hun' : (b.cells i j).value.get_unique = none := hun
  have hbelow : (b.set i j (SolvingCell.new (some n))).Below b := by
    intro i' j'
    by_cases hij : i' = i ∧ j' = j
    · rcases hij with ⟨rfl, rfl⟩
      rw [Board.cells_set_same]
      refine ⟨?_, fun _ => rfl, fun _ => rfl⟩
      intro k hk
      have hkn : k = n := by
        simpa [SolvingCell.new, PossibilitySet.uniqueFin] using hk
      rw [hkn]
      exact hcan'
    · rw [Board.cells_set_of_ne _ _ _ _ hij]
      exact cell_below_refl _
  have hcellne : SolvingCell.new (some n) ≠ b.cells i j := by
    intro he
    rw [← he, SolvingCell.new_some_get_unique] at hun
    cases hun
  have hne : b.set i j (SolvingCell.new (some n)) ≠ b :=
    Board.set_ne_of_cell_ne hcellne
  refine ⟨hbelow, ⟨fun _ => hne, fun _ => rfl⟩, fun _ => ?_⟩
  apply Finset.sum_lt_sum
  · intro p _
    exact SolvingCell.count_le_of_below (hbelow p.1 p.2)
  · refine ⟨(i, j), Finset.mem_univ _, ?_⟩
    simp only [Board.cells_set_same]
    have h2 : 2 ≤ (b.cells i j).count := PossibilitySet.two_le_count hcan' hun'
    have h1 : (SolvingCell.new (some n)).count = 1 := by
      unfold SolvingCell.count
      rw [SolvingCell.new_some_value, PossibilitySet.count_uniqueFin]
    omega

/-- Removing `n` from one cell (the body of the `filter_*` loops) is a
scan step: a no-op reporting `false` when `n` is absent, a strict shrink
reporting `true` otherwise. -/
lemma stepsTo_remove (b : Board SolvingCell) (i j n : Fin 9) :
    StepsTo b (b.set i j ((b.cells i j).remove n).1) (((b.cells i j).remove n).2) := by
  cases hbit : (b.cells i j).value.bits n
  · rw [SolvingCell.remove_of_not_mem hbit]
    rw [Board.set_self]
    exact stepsTo_refl b
  · rw [SolvingCell.remove_of_mem hbit]
    set c' : SolvingCell :=
      ⟨⟨fun k => if k = n then false else (b.cells i j).value.bits k⟩, true,
        (b.cells i j).unique⟩ with hc'
    have hsub : c'.value.Sub (b.cells i j).value := by
      intro k hk
      rw [hc'] at hk
      simp only at hk
      by_cases hkn : k = n
      · rw [hkn, if_pos rfl] at hk
        cases hk
      · rw [if_neg hkn] at hk
        exact hk
    have hvalne : c'.value ≠ (b.cells i j).value := by
      intro he
      have hbit' : c'.value.bits n = false := by
        rw [hc']
        simp
      rw [he, hbit] at hbit'
      cases hbit'
    have hbelow : (b.set i j c').Below b := by
      intro i' j'
      by_cases hij : i' = i ∧ j' = j
      · rcases hij with ⟨rfl, rfl⟩
        rw [Board.cells_set_same]
        exact ⟨hsub, fun _ => rfl, fun h => h⟩
      · rw [Board.cells_set_of_ne _ _ _ _ hij]
        exact cell_below_refl _
    have hcellne : c' ≠ b.cells i j := by
      intro he
      apply hvalne
      rw [he]
    have hne : b.set i j c' ≠ b := Board.set_ne_of_cell_ne hcellne
    refine ⟨hbelow, ⟨fun _ => hne, fun _ => rfl⟩, fun _ => ?_⟩
    apply Finset.sum_lt_sum
    · intro p _
      exact SolvingCell.count_le_of_below (hbelow p.1 p.2)
    · refine ⟨(i, j), Finset.mem_univ _, ?_⟩
      simp only [Board.cells_set_same]
      exact PossibilitySet.count_lt_of_ssubset hsub hvalne

lemma exRowStep_sweepStep (i : Fin 9) : SweepStep (exRowStep i) := by
  intro b n
  unfold exRowStep
  split
  · rename_i j heq
    split
    · rename_i hun
      have hj : j ∈ (List.finRange 9).filter (fun j => (b.cells i j).can_be n) := by
        rw [heq]
        exact List.mem_singleton_self j
      exact stepsTo_assign (List.mem_filter.mp hj).2 hun
    · exact stepsTo_refl b
  · exact stepsTo_refl b

lemma exColStep_sweepStep (j : Fin 9) : SweepStep (exColStep j) := by
  intro b n
  unfold exColStep
  split
  · rename_i i heq
    split
    · rename_i hun
      have hi : i ∈ (List.finRange 9).filter (fun i => (b.cells i j).can_be n) := by
        rw [heq]
        exact List.mem_singleton_self i
      exact stepsTo_assign (List.mem_filter.mp hi).2 hun
    · exact stepsTo_refl b
  · exact stepsTo_refl b

lemma exBlockStep_sweepStep (bi bj : Fin 3) : SweepStep (exBlockStep bi bj) := by
  intro b n
  unfold exBlockStep
  split
  · rename_i p heq
    split
    · rename_i hun
      have hp : p ∈ (blockCellList bi bj).filter (fun p => (b.cells p.1 p.2).can_be n) := by
        rw [heq]
        exact List.mem_singleton_self p
      exact stepsTo_assign (List.mem_filter.mp hp).2 hun
    · exact stepsTo_refl b
  · exact stepsTo_refl b

lemma filterRowStep_sweepStep (i j n : Fin 9) : SweepStep (filterRowStep i j n) := by
  intro b j2
  unfold filterRowStep
  by_cases hj : j = j2
  · rw [if_pos hj]
    exact stepsTo_refl b
  · rw [if_neg hj]
    exact stepsTo_remove b i j2 n

lemma filterColStep_sweepStep (i j n : Fin 9) : SweepStep (filterColStep i j n) := by
  intro b i2
  unfold filterColStep
  by_cases hi : i = i2
  · rw [if_pos hi]
    exact stepsTo_refl b
  · rw [if_neg hi]
    exact stepsTo_remove b i2 j n

lemma filterBlockStep_sweepStep (i j n : Fin 9) : SweepStep (filterBlockStep i j n) := by
  intro b p
  unfold filterBlockStep
  by_cases hp : p.1 = i ∨ p.2 = j
  · rw [if_pos hp]
    exact stepsTo_refl b
  · rw [if_neg hp]
    exact stepsTo_remove b p.1 p.2 n

lemma filter_row_stepsTo (b : Board SolvingCell) (i j n : Fin 9) :
    StepsTo b (filter_row b i j n).1 (filter_row b i j n).2 :=
  orFold_stepsTo (filterRowStep_sweepStep i j n) (List.finRange 9) b

lemma filter_col_stepsTo (b : Board SolvingCell) (i j n : Fin 9) :
    StepsTo b (filter_col b i j n).1 (filter_col b i j n).2 :=
  orFold_stepsTo (filterColStep_sweepStep i j n) (List.finRange 9) b

lemma filter_block_stepsTo (b : Board SolvingCell) (i j n : Fin 9) :
    StepsTo b (filter_block b i j n).1 (filter_block b i j n).2 :=
  orFold_stepsTo (filterBlockStep_sweepStep i j n)
    (blockCellList (blockOf i) (blockOf j)) b

lemma examine_cell_stepsTo (b : Board SolvingCell) (i j : Fin 9) :
    StepsTo b (examine_cell b i j).1 (examine_cell b i j).2 := by
  unfold examine_cell
  by_cases hup : (b.cells i j).has_update = false
  · rw [if_pos hup]
    exact stepsTo_refl b
  · rw [if_neg hup]
    rcases hun : (b.cells i j).get_unique with - | n
    · exact stepsTo_refl b
    · exact stepsTo_comp
        (stepsTo_comp (filter_row_stepsTo b i j n)
          (filter_col_stepsTo (filter_row b i j n).1 i j n))
        (filter_block_stepsTo (filter_col (filter_row b i j n).1 i j n).1 i j n)

lemma examine_row_sweepStep : SweepStep examine_row :=
  fun b i => orFold_stepsTo (exRowStep_sweepStep i) (List.finRange 9) b

lemma examine_col_sweepStep : SweepStep examine_col :=
  fun b j => orFold_stepsTo (exColStep_sweepStep j) (List.finRange 9) b

lemma examine_block_pair_sweepStep :
    SweepStep (fun b (p : Fin 3 × Fin 3) => examine_block b p.1 p.2) :=
  fun b p => orFold_stepsTo (exBlockStep_sweepStep p.1 p.2) (List.finRange 9) b

lemma examine_cell_pair_sweepStep :
    SweepStep (fun b (p : Fin 9 × Fin 9) => examine_cell b p.1 p.2) :=
  fun b p => examine_cell_stepsTo b p.1 p.2

lemma sweep_stepsTo (b : Board SolvingCell) : StepsTo b (sweep b).1 (sweep b).2 := by
  unfold sweep
  apply orFold_chain examine_cell_pair_sweepStep
  apply orFold_chain examine_block_pair_sweepStep
  apply orFold_chain (fun b j => examine_col_sweepStep b j)
  exact orFold_stepsTo examine_row_sweepStep (List.finRange 9) b

lemma sweep_below (b : Board SolvingCell) : (sweep b).1.Below b :=
  (sweep_stepsTo b).1

lemma sweep_flag_iff (b : Board SolvingCell) : (sweep b).2 = true ↔ (sweep b).1 ≠ b :=
  (sweep_stepsTo b).2.1

lemma sweep_decrease (b : Board SolvingCell) :
    (sweep b).2 = true → totalCount (sweep b).1 < totalCount b :=
  fun h => (sweep_stepsTo b).2.2 ((sweep_flag_iff b).mp h)

lemma sweep_unchanged_of_flag_false {b : Board SolvingCell}
    (h : (sweep b).2 = false) : (sweep b).1 = b := by
  by_contra hne
  have hf := (sweep_flag_iff b).mpr hne
  rw [h] at hf
  cases hf

/-- Pinning a cell to one of its still-possible digits only shrinks the
board. -/
lemma pin_below {b : Board SolvingCell} {i j n : Fin 9}
    (hcan : (b.cells i j).value.bits n = true) :
    (b.set i j (SolvingCell.new (some n))).Below b := by
  intro i' j'
  by_cases hij : i' = i ∧ j' = j
  · rcases hij with ⟨rfl, rfl⟩
    rw [Board.cells_set_same]
    refine ⟨?_, fun _ => rfl, fun _ => rfl⟩
    intro k hk
    have hkn : k = n := by
      simpa [SolvingCell.new, PossibilitySet.uniqueFin] using hk
    rw [hkn]
    exact hcan
  · rw [Board.cells_set_of_ne _ _ _ _ hij]
    exact cell_below_refl _

/-- The propagation loop `while sweep(&mut board) {}` of `solve`
(`solver.rs`).  Terminates because a productive pass strictly decreases
the total number of possibility bits (`sweep_decrease`). -/
def propagate (b : Board SolvingCell) : Board SolvingCell :=
  if h : (sweep b).2 = true then propagate (sweep b).1 else (sweep b).1
termination_by totalCount b
decreasing_by exact sweep_decrease b h

lemma propagate_fixed (b : Board SolvingCell) :
    sweep (propagate b) = (propagate b, false) := by
  induction b using propagate.induct with
  | case1 b h ih =>
    rw [propagate, dif_pos h]
    exact ih
  | case2 b h =>
    have h2 : (sweep b).2 = false := by simpa using h
    have h1 : (sweep b).1 = b := sweep_unchanged_of_flag_false h2
    rw [propagate, dif_neg h, h1]
    exact Prod.ext_iff.mpr ⟨h1, h2⟩

lemma propagate_below (b : Board SolvingCell) : (propagate b).Below b := by
  induction b using propagate.induct with
  | case1 b h ih =>
    rw [propagate, dif_pos h]
    exact board_below_trans ih (sweep_below b)
  | case2 b h =>
    rw [propagate, dif_neg h]
    exact sweep_below b

lemma propagate_pred (P : Board SolvingCell → Prop)
    (hP : ∀ b, P b → P (sweep b).1) (b : Board SolvingCell) (h : P b) :
    P (propagate b) := by
  induction b using propagate.induct with
  | case1 b h1 ih =>
    rw [propagate, dif_pos h1]
    exact ih (hP b h)
  | case2 b h1 =>
    rw [propagate, dif_neg h1]
    exact hP b h

/-- The `c == 1` penalty of the `min_by_key` closure in `case_analysis`:
singleton cells get key `N + 1`, which is larger than any other count. -/
def selKey (c : Nat) : Nat := if c = 1 then N + 1 else c

/-- `Iterator::min_by_key`: the first element attaining the minimal key
(`min_by_key` returns the first of several equally minimal elements). -/
def min_by_key (f : α → Nat) (l : List α) : Option α :=
  l.foldl (fun acc x =>
    match acc with
    | none => some x
    | some a => if f x < f a then some x else some a) none

/-- The row `k / N` of the cell index `k` of `case_analysis`. -/
def rowOf (k : Fin 81) : Fin 9 := ⟨k.val / 9, by have := k.isLt; omega⟩

/-- The column `k % N` of the cell index `k` of `case_analysis`. -/
def colOf (k : Fin 81) : Fin 9 := ⟨k.val % 9, by have := k.isLt; omega⟩

/-- The cell selection of `case_analysis`: the first index of `0..81`
minimising `selKey` of the cell's possibility count.  The source `unwrap`s
the result; the `none` branch is unreachable because the range is
non-empty. -/
def chooseIdx (b : Board SolvingCell) : Fin 81 :=
  match min_by_key (fun k : Fin 81 => selKey ((b.cells (rowOf k) (colOf k)).count))
      (List.finRange 81) with
  | some k => k
  | none => ⟨0, by omega⟩

mutual

/-- `solve` (`solver.rs`): propagate to a fixed point, emit the finished
grid if every cell is a singleton (`if let Some(solution) = ... return`),
otherwise fall back to case analysis.  The returned list models the
sequence of callback invocations. -/
def solve (b : Board SolvingCell) : List (Board (Fin 9)) :=
  ((propagate b).to_solution).elim (case_analysis (propagate b)) (fun s => [s])
termination_by (boardWeight b, 1)
decreasing_by
  have hle := boardWeight_le_of_below (propagate_below b)
  rcases lt_or_eq_of_le hle with hlt | heq
  · exact Prod.Lex.left _ _ hlt
  · rw [heq]
    exact Prod.Lex.right _ (by omega)

/-- `case_analysis` (`solver.rs`): take the chosen cell's candidates in
ascending order, pin a clone of the board to each candidate and solve it.
The source's `assert_ne!(board, board2)` cannot fire on boards reached by
the solver (the chosen cell then has at least two possibilities); its
panic on other boards is modelled as an empty emission. -/
def case_analysis (b : Board SolvingCell) : List (Board (Fin 9)) :=
  ((b.cells (rowOf (chooseIdx b)) (colOf (chooseIdx b))).iter).attach.flatMap
    (fun n =>
      if hne : b = b.set (rowOf (chooseIdx b)) (colOf (chooseIdx b))
          (SolvingCell.new (some n.1)) then []
      else solve (b.set (rowOf (chooseIdx b)) (colOf (chooseIdx b))
          (SolvingCell.new (some n.1))))
termination_by (boardWeight b, 0)
decreasing_by
  apply Prod.Lex.left
  apply boardWeight_lt_of_below_ne
  · apply pin_below
    exact (PossibilitySet.mem_iter _ _).mp n.2
  · exact fun h => hne h.symm

end

/-- `for_each_solution` (`solver.rs`): build the solving board from the
problem's optional clues and solve, collecting the emitted solution grids
in callback order. -/
def for_each_solution (problem : Board (Option (Fin 9))) : List (Board (Fin 9)) :=
  solve ⟨fun i j => SolvingCell.new (problem.cells i j)⟩

/-! ## Fixed points of `sweep` -/

lemma cell_count_eq_one_iff (c : SolvingCell) :
    c.count = 1 ↔ ∃ n, c.get_unique = some n :=
  PossibilitySet.count_eq_one_iff c.value

lemma SolvingCell.remove_flag_false_iff (c : SolvingCell) (n : Fin 9) :
    (c.remove n).2 = false ↔ c.value.bits n = false := by
  cases hbit : c.value.bits n
  · rw [SolvingCell.remove_of_not_mem hbit]
  · rw [SolvingCell.remove_of_mem hbit]

lemma mem_allCellList (p : Fin 9 × Fin 9) : p ∈ allCellList := by
  unfold allCellList
  rw [List.mem_flatMap]
  exact ⟨p.1, List.mem_finRange _, List.mem_map.mpr ⟨p.2, List.mem_finRange _, rfl⟩⟩

lemma to_solution_eq_some_iff {b : Board SolvingCell} {s : Board (Fin 9)} :
    b.to_solution = some s ↔ ∀ i j, (b.cells i j).get_unique = some (s.cells i j) := by
  unfold Board.to_solution
  split
  · rename_i h
    constructor
    · intro hs
      injection hs with hs
      subst hs
      intro i j
      simp
    · intro hall
      congr 1
      ext i j
      simp [hall i j]
  · rename_i h
    push_neg at h
    constructor
    · intro hc
      cases hc
    · intro hall
      exfalso
      obtain ⟨i, j, hij⟩ := h
      apply hij
      rw [hall i j]
      rfl

lemma to_solution_isSome_iff (b : Board SolvingCell) :
    b.to_solution.isSome = true ↔ ∀ i j, (b.cells i j).count = 1 := by
  unfold Board.to_solution
  split
  · rename_i h
    simp only [Option.isSome_some, true_iff]
    intro i j
    rcases Option.isSome_iff_exists.mp (h i j) with ⟨n, hn⟩
    exact (cell_count_eq_one_iff _).mpr ⟨n, hn⟩
  · rename_i h
    push_neg at h
    constructor
    · intro hc
      simp at hc
    · intro hall
      exfalso
      obtain ⟨i, j, hij⟩ := h
      apply hij
      rcases (cell_count_eq_one_iff _).mp (hall i j) with ⟨n, hn⟩
      rw [hn]
      rfl

lemma orFold_eq_self_of_flag_false {g : Board SolvingCell → α → Board SolvingCell × Bool}
    (hg : SweepStep g) {l : List α} {st : Board SolvingCell × Bool}
    (h : (orFold g l st).2 = false) : st.2 = false ∧ orFold g l st = st := by
  obtain ⟨b, u⟩ := st
  rw [orFold_init_flag g l b u] at h ⊢
  simp only at h ⊢
  rw [Bool.or_eq_false_iff] at h
  obtain ⟨hu, hR⟩ := h
  have hT := orFold_stepsTo hg l b
  have hRb : (orFold g l (b, false)).1 = b := by
    by_contra hne
    have hf := hT.2.1.mpr hne
    rw [hR] at hf
    cases hf
  subst hu
  refine ⟨rfl, ?_⟩
  rw [Prod.ext_iff]
  exact ⟨hRb, by simp [hR]⟩

lemma sweep_fixed_examine_cell {b : Board SolvingCell} (h : sweep b = (b, false)) :
    ∀ p ∈ allCellList, examine_cell b p.1 p.2 = (b, false) := by
  unfold sweep at h
  dsimp only at h
  have hflag : (orFold (fun b p => examine_cell b p.1 p.2) allCellList
      (orFold (fun b p => examine_block b p.1 p.2) blockIdxList
        (orFold examine_col (List.finRange 9)
          (orFold examine_row (List.finRange 9) (b, false))))).2 = false := by
    rw [h]
  obtain ⟨-, heq⟩ := orFold_eq_self_of_flag_false examine_cell_pair_sweepStep hflag
  rw [heq] at h
  have h2 : orFold (fun b p => examine_cell b p.1 p.2) allCellList (b, false) = (b, false) := by
    conv_lhs => rw [← h]
    rw [heq]
    exact h
  exact orFold_fixed examine_cell_pair_sweepStep allCellList b h2

lemma examine_cell_fixed {b : Board SolvingCell} {i j : Fin 9}
    (h : examine_cell b i j = (b, false))
    (hup : (b.cells i j).has_update = true) {n : Fin 9}
    (hn : (b.cells i j).get_unique = some n) :
    (∀ j2, j ≠ j2 → (b.cells i j2).value.bits n = false) ∧
    (∀ i2, i ≠ i2 → (b.cells i2 j).value.bits n = false) ∧
    (∀ p ∈ blockCellList (blockOf i) (blockOf j),
      ¬(p.1 = i ∨ p.2 = j) → (b.cells p.1 p.2).value.bits n = false) := by
  unfold examine_cell at h
  rw [if_neg (by simp [hup])] at h
  rw [hn] at h
  dsimp only at h
  have hb3 : (filter_block (filter_col (filter_row b i j n).1 i j n).1 i j n).1 = b :=
    congrArg Prod.fst h
  have hflags : (((filter_row b i j n).2 || (filter_col (filter_row b i j n).1 i j n).2) ||
      (filter_block (filter_col (filter_row b i j n).1 i j n).1 i j n).2) = false :=
    congrArg Prod.snd h
  rw [Bool.or_eq_false_iff, Bool.or_eq_false_iff] at hflags
  obtain ⟨⟨hf1, hf2⟩, hf3⟩ := hflags
  have hb1 : (filter_row b i j n).1 = b := by
    by_contra hne
    have hf := (filter_row_stepsTo b i j n).2.1.mpr hne
    rw [hf1] at hf
    cases hf
  have hrow : filter_row b i j n = (b, false) := Prod.ext_iff.mpr ⟨hb1, hf1⟩
  rw [hb1] at hf2 hf3 hb3
  have hb2 : (filter_col b i j n).1 = b := by
    by_contra hne
    have hf := (filter_col_stepsTo b i j n).2.1.mpr hne
    rw [hf2] at hf
    cases hf
  have hcol : filter_col b i j n = (b, false) := Prod.ext_iff.mpr ⟨hb2, hf2⟩
  rw [hb2] at hf3 hb3
  have hblk : filter_block b i j n = (b, false) := Prod.ext_iff.mpr ⟨hb3, hf3⟩
  refine ⟨?_, ?_, ?_⟩
  · intro j2 hj2
    have hstep := orFold_fixed (filterRowStep_sweepStep i j n) (List.finRange 9) b
      hrow j2 (List.mem_finRange j2)
    unfold filterRowStep at hstep
    rw [if_neg hj2] at hstep
    have := congrArg Prod.snd hstep
    simp only at this
    exact (SolvingCell.remove_flag_false_iff _ _).mp this
  · intro i2 hi2
    have hstep := orFold_fixed (filterColStep_sweepStep i j n) (List.finRange 9) b
      hcol i2 (List.mem_finRange i2)
    unfold filterColStep at hstep
    rw [if_neg hi2] at hstep
    have := congrArg Prod.snd hstep
    simp only at this
    exact (SolvingCell.remove_flag_false_iff _ _).mp this
  · intro p hp hpij
    have hstep := orFold_fixed (filterBlockStep_sweepStep i j n)
      (blockCellList (blockOf i) (blockOf j)) b hblk p hp
    unfold filterBlockStep at hstep
    rw [if_neg hpij] at hstep
    have := congrArg Prod.snd hstep
    simp only at this
    exact (SolvingCell.remove_flag_false_iff _ _).mp this

lemma blockOf_blockCell (bi r : Fin 3) : blockOf (blockCell bi r) = bi := by
  unfold blockOf blockCell
  apply Fin.ext
  simp only
  have hr := r.isLt
  have hb := bi.isLt
  omega

lemma mem_blockCellList_iff (bi bj : Fin 3) (p : Fin 9 × Fin 9) :
    p ∈ blockCellList bi bj ↔ blockOf p.1 = bi ∧ blockOf p.2 = bj := by
  unfold blockCellList
  rw [List.mem_flatMap]
  constructor
  · rintro ⟨r, -, hr⟩
    rw [List.mem_map] at hr
    obtain ⟨c, -, hrc⟩ := hr
    rw [← hrc]
    exact ⟨blockOf_blockCell bi r, blockOf_blockCell bj c⟩
  · rintro ⟨h1, h2⟩
    have hp1 := p.1.isLt
    have hp2 := p.2.isLt
    refine ⟨⟨p.1.val % 3, by omega⟩, List.mem_finRange _, ?_⟩
    rw [List.mem_map]
    refine ⟨⟨p.2.val % 3, by omega⟩, List.mem_finRange _, ?_⟩
    have hv1 : (blockOf p.1).val = p.1.val / 3 := rfl
    have hv2 : (blockOf p.2).val = p.2.val / 3 := rfl
    rw [h1] at hv1
    rw [h2] at hv2
    rw [Prod.ext_iff]
    constructor
    · apply Fin.ext
      show 3 * bi.val + p.1.val % 3 = p.1.val
      omega
    · apply Fin.ext
      show 3 * bj.val + p.2.val % 3 = p.2.val
      omega

/-! ## Specification predicates -/

/-- The full Sudoku constraint: every row, every column and every 3x3
block contains each of the 9 digits exactly once. -/
def validSudoku (s : Board (Fin 9)) : Prop :=
  ∀ n : Fin 9,
    (∀ i : Fin 9, ∃ j : Fin 9, s.cells i j = n ∧ ∀ j', s.cells i j' = n → j' = j) ∧
    (∀ j : Fin 9, ∃ i : Fin 9, s.cells i j = n ∧ ∀ i', s.cells i' j = n → i' = i) ∧
    (∀ bi bj : Fin 3, ∃ q : Fin 3 × Fin 3,
      s.cells (blockCell bi q.1) (blockCell bj q.2) = n ∧
      ∀ q', s.cells (blockCell bi q'.1) (blockCell bj q'.2) = n → q' = q)

/-- The digit assignment `A` is still possible in every cell of the
solving board `b`. -/
def compat (A : Board (Fin 9)) (b : Board SolvingCell) : Prop :=
  ∀ i j, (b.cells i j).value.bits (A.cells i j) = true

/-- Engine reachability invariant: a cell whose update flag is off has
never been written, so it still holds the full possibility set. -/
def cleanInv (b : Board SolvingCell) : Prop :=
  ∀ i j, (b.cells i j).update = false → (b.cells i j).value = PossibilitySet.FULL

lemma PossibilitySet.uniqueFin_ne_FULL :
    ∀ n : Fin 9, PossibilitySet.uniqueFin n ≠ PossibilitySet.FULL := by decide

lemma blockCell_inj {bi : Fin 3} {r r' : Fin 3}
    (h : blockCell bi r = blockCell bi r') : r = r' := by
  have hv := congrArg Fin.val h
  simp only [blockCell] at hv
  apply Fin.ext
  omega

lemma blockCell_decomp (i : Fin 9) :
    blockCell (blockOf i) ⟨i.val % 3, by omega⟩ = i := by
  apply Fin.ext
  show 3 * (i.val / 3) + i.val % 3 = i.val
  omega

lemma compat_of_below {A : Board (Fin 9)} {b b' : Board SolvingCell}
    (hb : b'.Below b) (h : compat A b') : compat A b :=
  fun i j => (hb i j).1 _ (h i j)

lemma compat_of_to_solution {b : Board SolvingCell} {s : Board (Fin 9)}
    (hs : b.to_solution = some s) : compat s b := by
  intro i j
  rw [PossibilitySet.eq_uniqueFin_of_get_unique (to_solution_eq_some_iff.mp hs i j)]
  exact PossibilitySet.uniqueFin_bits_self _

lemma compat_eq_of_to_solution {A : Board (Fin 9)} {b : Board SolvingCell}
    {s : Board (Fin 9)} (hs : b.to_solution = some s) (hA : compat A b) : A = s := by
  ext i j
  have hval := PossibilitySet.eq_uniqueFin_of_get_unique (to_solution_eq_some_iff.mp hs i j)
  have hb := hA i j
  rw [hval] at hb
  have hb' : A.cells i j = s.cells i j := by
    simpa [PossibilitySet.uniqueFin] using hb
  exact congrArg Fin.val hb'

lemma fixed_point_distinct {b : Board SolvingCell} {s : Board (Fin 9)}
    (hfix : sweep b = (b, false)) (hinv : cleanInv b)
    (hs : b.to_solution = some s) (i j i2 j2 : Fin 9)
    (hne : ¬(i = i2 ∧ j = j2))
    (hunit : i = i2 ∨ j = j2 ∨ (blockOf i2 = blockOf i ∧ blockOf j2 = blockOf j)) :
    s.cells i j ≠ s.cells i2 j2 := by
  have hget : ∀ a c, (b.cells a c).get_unique = some (s.cells a c) :=
    to_solution_eq_some_iff.mp hs
  have hval : ∀ a c, (b.cells a c).value = PossibilitySet.uniqueFin (s.cells a c) :=
    fun a c => PossibilitySet.eq_uniqueFin_of_get_unique (hget a c)
  have hdirty : ∀ a c, (b.cells a c).has_update = true := by
    intro a c
    rcases hu : (b.cells a c).update
    · exfalso
      have hfull := hinv a c hu
      rw [hval a c] at hfull
      exact PossibilitySet.uniqueFin_ne_FULL _ hfull
    · exact hu
  have hexam := sweep_fixed_examine_cell hfix
  intro heq
  have hpeers := examine_cell_fixed (hexam (i, j) (mem_allCellList _)) (hdirty i j) (hget i j)
  have hbit2 : (b.cells i2 j2).value.bits (s.cells i j) = true := by
    rw [hval i2 j2, heq]
    exact PossibilitySet.uniqueFin_bits_self _
  rcases hunit with rfl | hrest
  · have hj : j ≠ j2 := fun hjj => hne ⟨rfl, hjj⟩
    have hex := hpeers.1 j2 hj
    rw [hex] at hbit2
    cases hbit2
  · rcases hrest with rfl | ⟨hb1, hb2⟩
    · have hi : i ≠ i2 := fun hii => hne ⟨hii, rfl⟩
      have hex := hpeers.2.1 i2 hi
      rw [hex] at hbit2
      cases hbit2
    · by_cases hi : i = i2
      · subst hi
        have hj : j ≠ j2 := fun hjj => hne ⟨rfl, hjj⟩
        have hex := hpeers.1 j2 hj
        rw [hex] at hbit2
        cases hbit2
      · by_cases hj : j = j2
        · subst hj
          have hex := hpeers.2.1 i2 hi
          rw [hex] at hbit2
          cases hbit2
        · have hmem : (i2, j2) ∈ blockCellList (blockOf i) (blockOf j) :=
            (mem_blockCellList_iff _ _ _).mpr ⟨hb1, hb2⟩
          have hcond : ¬((i2, j2).1 = i ∨ (i2, j2).2 = j) := by
            simp only
            push_neg
            exact ⟨fun h => hi h.symm, fun h => hj h.symm⟩
          have hex := hpeers.2.2 (i2, j2) hmem hcond
          rw [hex] at hbit2
          cases hbit2

lemma fixed_point_valid {b : Board SolvingCell} {s : Board (Fin 9)}
    (hfix : sweep b = (b, false)) (hinv : cleanInv b)
    (hs : b.to_solution = some s) : validSudoku s := by
  have hdist := fixed_point_distinct hfix hinv hs
  intro n
  refine ⟨?_, ?_, ?_⟩
  · intro i
    have hinj : Function.Injective (fun j => s.cells i j) := by
      intro j1 j2 hj
      by_contra hne
      exact hdist i j1 i j2 (fun hp => hne hp.2) (Or.inl rfl) hj
    obtain ⟨j, hj⟩ := Finite.injective_iff_surjective.mp hinj n
    exact ⟨j, hj, fun j' hj' => hinj (show s.cells i j' = s.cells i j by
      rw [hj']; exact hj.symm)⟩
  · intro j
    have hinj : Function.Injective (fun i => s.cells i j) := by
      intro i1 i2 hi
      by_contra hne
      exact hdist i1 j i2 j (fun hp => hne hp.1) (Or.inr (Or.inl rfl)) hi
    obtain ⟨i, hi⟩ := Finite.injective_iff_surjective.mp hinj n
    exact ⟨i, hi, fun i' hi' => hinj (show s.cells i' j = s.cells i j by
      rw [hi']; exact hi.symm)⟩
  · intro bi bj
    have hinj : Function.Injective
        (fun q : Fin 3 × Fin 3 => s.cells (blockCell bi q.1) (blockCell bj q.2)) := by
      intro q1 q2 hq
      by_contra hne
      apply hdist (blockCell bi q1.1) (blockCell bj q1.2)
          (blockCell bi q2.1) (blockCell bj q2.2) ?_ ?_ hq
      · rintro ⟨h1, h2⟩
        exact hne (Prod.ext_iff.mpr ⟨blockCell_inj h1, blockCell_inj h2⟩)
      · refine Or.inr (Or.inr ⟨?_, ?_⟩)
        · rw [blockOf_blockCell, blockOf_blockCell]
        · rw [blockOf_blockCell, blockOf_blockCell]
    have hbij : Function.Bijective
        (fun q : Fin 3 × Fin 3 => s.cells (blockCell bi q.1) (blockCell bj q.2)) :=
      (Fintype.bijective_iff_injective_and_card _).mpr ⟨hinj, by simp⟩
    obtain ⟨q, hq⟩ := hbij.2 n
    exact ⟨q, hq, fun q' hq' => hinj (show s.cells (blockCell bi q'.1) (blockCell bj q'.2) =
      s.cells (blockCell bi q.1) (blockCell bj q.2) by rw [hq']; exact hq.symm)⟩

/-! ## Preservation of the reachability invariant -/

lemma orFold_pred {g : Board SolvingCell → α → Board SolvingCell × Bool}
    (P : Board SolvingCell → Prop) (hg : ∀ b x, P b → P (g b x).1) :
    ∀ (l : List α) (st : Board SolvingCell × Bool), P st.1 → P (orFold g l st).1 := by
  intro l
  induction l with
  | nil =>
    intro st h
    exact h
  | cons x xs ih =>
    intro st h
    obtain ⟨b, u⟩ := st
    rw [orFold_cons]
    exact ih _ (hg b x h)

lemma cleanInv_set {b : Board SolvingCell} {i j : Fin 9} {c : SolvingCell}
    (h : cleanInv b)
    (hc : c.update = false → c.value = PossibilitySet.FULL) :
    cleanInv (b.set i j c) := by
  intro i' j' hu
  by_cases hij : i' = i ∧ j' = j
  · rcases hij with ⟨rfl, rfl⟩
    rw [Board.cells_set_same] at hu ⊢
    exact hc hu
  · rw [Board.cells_set_of_ne _ _ _ _ hij] at hu ⊢
    exact h i' j' hu

lemma exRowStep_cleanInv (i : Fin 9) :
    ∀ b n, cleanInv b → cleanInv (exRowStep i b n).1 := by
  intro b n h
  unfold exRowStep
  split
  · rename_i j heq
    split
    · apply cleanInv_set h
      intro hu
      simp [SolvingCell.new] at hu
    · exact h
  · exact h

lemma exColStep_cleanInv (j : Fin 9) :
    ∀ b n, cleanInv b → cleanInv (exColStep j b n).1 := by
  intro b n h
  unfold exColStep
  split
  · rename_i i heq
    split
    · apply cleanInv_set h
      intro hu
      simp [SolvingCell.new] at hu
    · exact h
  · exact h

lemma exBlockStep_cleanInv (bi bj : Fin 3) :
    ∀ b n, cleanInv b → cleanInv (exBlockStep bi bj b n).1 := by
  intro b n h
  unfold exBlockStep
  split
  · rename_i p heq
    split
    · apply cleanInv_set h
      intro hu
      simp [SolvingCell.new] at hu
    · exact h
  · exact h

lemma remove_set_cleanInv {b : Board SolvingCell} (i j n : Fin 9)
    (h : cleanInv b) : cleanInv (b.set i j ((b.cells i j).remove n).1) := by
  cases hbit : (b.cells i j).value.bits n
  · rw [SolvingCell.remove_of_not_mem hbit, Board.set_self]
    exact h
  · rw [SolvingCell.remove_of_mem hbit]
    apply cleanInv_set h
    intro hu
    cases hu

lemma filterRowStep_cleanInv (i j n : Fin 9) :
    ∀ b j2, cleanInv b → cleanInv (filterRowStep i j n b j2).1 := by
  intro b j2 h
  unfold filterRowStep
  by_cases hj : j = j2
  · rw [if_pos hj]
    exact h
  · rw [if_neg hj]
    exact remove_set_cleanInv i j2 n h

lemma filterColStep_cleanInv (i j n : Fin 9) :
    ∀ b i2, cleanInv b → cleanInv (filterColStep i j n b i2).1 := by
  intro b i2 h
  unfold filterColStep
  by_cases hi : i = i2
  · rw [if_pos hi]
    exact h
  · rw [if_neg hi]
    exact remove_set_cleanInv i2 j n h

lemma filterBlockStep_cleanInv (i j n : Fin 9) :
    ∀ b p, cleanInv b → cleanInv (filterBlockStep i j n b p).1 := by
  intro b p h
  unfold filterBlockStep
  by_cases hp : p.1 = i ∨ p.2 = j
  · rw [if_pos hp]
    exact h
  · rw [if_neg hp]
    exact remove_set_cleanInv p.1 p.2 n h

lemma examine_cell_cleanInv :
    ∀ b (p : Fin 9 × Fin 9), cleanInv b → cleanInv (examine_cell b p.1 p.2).1 := by
  intro b p h
  unfold examine_cell
  by_cases hup : (b.cells p.1 p.2).has_update = false
  · rw [if_pos hup]
    exact h
  · rw [if_neg hup]
    rcases hun : (b.cells p.1 p.2).get_unique with - | n
    · exact h
    · dsimp only
      apply orFold_pred _ (fun b q => filterBlockStep_cleanInv p.1 p.2 n b q)
      apply orFold_pred _ (fun b q => filterColStep_cleanInv p.1 p.2 n b q)
      apply orFold_pred _ (fun b q => filterRowStep_cleanInv p.1 p.2 n b q)
      exact h

lemma examine_row_cleanInv :
    ∀ b (i : Fin 9), cleanInv b → cleanInv (examine_row b i).1 := by
  intro b i hb
  unfold examine_row
  exact orFold_pred _ (fun b n => exRowStep_cleanInv i b n) _ _ hb

lemma examine_col_cleanInv :
    ∀ b (j : Fin 9), cleanInv b → cleanInv (examine_col b j).1 := by
  intro b j hb
  unfold examine_col
  exact orFold_pred _ (fun b n => exColStep_cleanInv j b n) _ _ hb

lemma examine_block_cleanInv :
    ∀ b (p : Fin 3 × Fin 3), cleanInv b → cleanInv (examine_block b p.1 p.2).1 := by
  intro b p hb
  unfold examine_block
  exact orFold_pred _ (fun b n => exBlockStep_cleanInv p.1 p.2 b n) _ _ hb

lemma sweep_cleanInv {b : Board SolvingCell} (h : cleanInv b) :
    cleanInv (sweep b).1 := by
  unfold sweep
  dsimp only
  apply orFold_pred _ examine_cell_cleanInv
  apply orFold_pred _ examine_block_cleanInv
  apply orFold_pred _ examine_col_cleanInv
  apply orFold_pred _ examine_row_cleanInv
  exact h

lemma propagate_cleanInv {b : Board SolvingCell} (h : cleanInv b) :
    cleanInv (propagate b) :=
  propagate_pred cleanInv (fun _ hb => sweep_cleanInv hb) b h

lemma pin_cleanInv {b : Board SolvingCell} {i j n : Fin 9} (h : cleanInv b) :
    cleanInv (b.set i j (SolvingCell.new (some n))) := by
  apply cleanInv_set h
  intro hu
  simp [SolvingCell.new] at hu

/-! ## Propagation preserves every valid completion -/

lemma validSudoku_row_unique {A : Board (Fin 9)} (hA : validSudoku A)
    {i j j2 : Fin 9} (h : A.cells i j = A.cells i j2) : j = j2 := by
  obtain ⟨js, -, huniq⟩ := (hA (A.cells i j)).1 i
  have h1 := huniq j rfl
  have h2 := huniq j2 h.symm
  rw [h1, h2]

lemma validSudoku_col_unique {A : Board (Fin 9)} (hA : validSudoku A)
    {i i2 j : Fin 9} (h : A.cells i j = A.cells i2 j) : i = i2 := by
  obtain ⟨is, -, huniq⟩ := (hA (A.cells i j)).2.1 j
  have h1 := huniq i rfl
  have h2 := huniq i2 h.symm
  rw [h1, h2]

lemma validSudoku_block_unique {A : Board (Fin 9)} (hA : validSudoku A)
    {i j i2 j2 : Fin 9} (hb1 : blockOf i2 = blockOf i) (hb2 : blockOf j2 = blockOf j)
    (h : A.cells i j = A.cells i2 j2) : i = i2 ∧ j = j2 := by
  obtain ⟨q, -, huniq⟩ := (hA (A.cells i j)).2.2 (blockOf i) (blockOf j)
  have hq1 : (⟨⟨i.val % 3, by omega⟩, ⟨j.val % 3, by omega⟩⟩ : Fin 3 × Fin 3) = q := by
    apply huniq
    rw [blockCell_decomp i, blockCell_decomp j]
  have hq2 : (⟨⟨i2.val % 3, by omega⟩, ⟨j2.val % 3, by omega⟩⟩ : Fin 3 × Fin 3) = q := by
    apply huniq
    rw [← hb1, ← hb2, blockCell_decomp i2, blockCell_decomp j2]
    exact h.symm
  rw [← hq2] at hq1
  rw [Prod.ext_iff] at hq1
  obtain ⟨hr, hc⟩ := hq1
  have hrv := congrArg Fin.val hr
  have hcv := congrArg Fin.val hc
  simp only at hrv hcv
  have hbv1 := congrArg Fin.val hb1
  have hbv2 := congrArg Fin.val hb2
  simp only [blockOf] at hbv1 hbv2
  constructor
  · apply Fin.ext
    omega
  · apply Fin.ext
    omega

lemma exRowStep_compat {A : Board (Fin 9)} (hA : validSudoku A) (i : Fin 9) :
    ∀ b n, compat A b → compat A (exRowStep i b n).1 := by
  intro b n hc
  unfold exRowStep
  split
  · rename_i j heq
    split
    · obtain ⟨js, hjs, -⟩ := (hA n).1 i
      have hmem : js ∈ (List.finRange 9).filter (fun j => (b.cells i j).can_be n) := by
        apply List.mem_filter.mpr
        refine ⟨List.mem_finRange _, ?_⟩
        show (b.cells i js).value.bits n = true
        rw [← hjs]
        exact hc i js
      rw [heq] at hmem
      have hjj : js = j := List.mem_singleton.mp hmem
      subst hjj
      intro i' j'
      by_cases hij : i' = i ∧ j' = js
      · rcases hij with ⟨rfl, rfl⟩
        rw [Board.cells_set_same]
        show (SolvingCell.new (some n)).value.bits (A.cells i' j') = true
        rw [SolvingCell.new_some_value, hjs]
        exact PossibilitySet.uniqueFin_bits_self n
      · rw [Board.cells_set_of_ne _ _ _ _ hij]
        exact hc i' j'
    · exact hc
  · exact hc

lemma exColStep_compat {A : Board (Fin 9)} (hA : validSudoku A) (j : Fin 9) :
    ∀ b n, compat A b → compat A (exColStep j b n).1 := by
  intro b n hc
  unfold exColStep
  split
  · rename_i i heq
    split
    · obtain ⟨is, his, -⟩ := (hA n).2.1 j
      have hmem : is ∈ (List.finRange 9).filter (fun i => (b.cells i j).can_be n) := by
        apply List.mem_filter.mpr
        refine ⟨List.mem_finRange _, ?_⟩
        show (b.cells is j).value.bits n = true
        rw [← his]
        exact hc is j
      rw [heq] at hmem
      have hii : is = i := List.mem_singleton.mp hmem
      subst hii
      intro i' j'
      by_cases hij : i' = is ∧ j' = j
      · rcases hij with ⟨rfl, rfl⟩
        rw [Board.cells_set_same]
        show (SolvingCell.new (some n)).value.bits (A.cells i' j') = true
        rw [SolvingCell.new_some_value, his]
        exact PossibilitySet.uniqueFin_bits_self n
      · rw [Board.cells_set_of_ne _ _ _ _ hij]
        exact hc i' j'
    · exact hc
  · exact hc

lemma exBlockStep_compat {A : Board (Fin 9)} (hA : validSudoku A) (bi bj : Fin 3) :
    ∀ b n, compat A b → compat A (exBlockStep bi bj b n).1 := by
  intro b n hc
  unfold exBlockStep
  split
  · rename_i p heq
    split
    · obtain ⟨q, hq, -⟩ := (hA n).2.2 bi bj
      have hmem : (blockCell bi q.1, blockCell bj q.2) ∈
          (blockCellList bi bj).filter (fun p => (b.cells p.1 p.2).can_be n) := by
        apply List.mem_filter.mpr
        refine ⟨(mem_blockCellList_iff _ _ _).mpr
          ⟨blockOf_blockCell _ _, blockOf_blockCell _ _⟩, ?_⟩
        show (b.cells (blockCell bi q.1) (blockCell bj q.2)).value.bits n = true
        rw [← hq]
        exact hc _ _
      rw [heq] at hmem
      have hpq : (blockCell bi q.1, blockCell bj q.2) = p := List.mem_singleton.mp hmem
      intro i' j'
      by_cases hij : i' = p.1 ∧ j' = p.2
      · rcases hij with ⟨rfl, rfl⟩
        rw [Board.cells_set_same]
        show (SolvingCell.new (some n)).value.bits (A.cells p.1 p.2) = true
        rw [SolvingCell.new_some_value, ← hpq]
        simp only
        rw [hq]
        exact PossibilitySet.uniqueFin_bits_self n
      · rw [Board.cells_set_of_ne _ _ _ _ hij]
        exact hc i' j'
    · exact hc
  · exact hc

lemma orFold_pred_mem {g : Board SolvingCell → α → Board SolvingCell × Bool}
    (P : Board SolvingCell → Prop) :
    ∀ (l : List α), (∀ b x, x ∈ l → P b → P (g b x).1) →
      ∀ (st : Board SolvingCell × Bool), P st.1 → P (orFold g l st).1 := by
  intro l
  induction l with
  | nil =>
    intro hg st h
    exact h
  | cons x xs ih =>
    intro hg st h
    obtain ⟨b, u⟩ := st
    rw [orFold_cons]
    exact ih (fun b y hy => hg b y (List.mem_cons_of_mem x hy)) _
      (hg b x (List.mem_cons_self ..) h)

lemma compat_digit_of_get_unique {A : Board (Fin 9)} {b : Board SolvingCell}
    {i j n : Fin 9} (hc : compat A b)
    (hg : (b.cells i j).get_unique = some n) : A.cells i j = n := by
  have hval := PossibilitySet.eq_uniqueFin_of_get_unique hg
  have hb := hc i j
  rw [hval] at hb
  simpa [PossibilitySet.uniqueFin] using hb

lemma remove_compat_of_ne {A : Board (Fin 9)} {b : Board SolvingCell}
    {i2 j2 n : Fin 9} (hc : compat A b) (hne : A.cells i2 j2 ≠ n) :
    compat A (b.set i2 j2 ((b.cells i2 j2).remove n).1) := by
  intro i' j'
  by_cases hij : i' = i2 ∧ j' = j2
  · rcases hij with ⟨rfl, rfl⟩
    rw [Board.cells_set_same]
    cases hbit : (b.cells i' j').value.bits n
    · rw [SolvingCell.remove_of_not_mem hbit]
      exact hc i' j'
    · rw [SolvingCell.remove_of_mem hbit]
      show (if A.cells i' j' = n then false else (b.cells i' j').value.bits (A.cells i' j')) = true
      rw [if_neg hne]
      exact hc i' j'
  · rw [Board.cells_set_of_ne _ _ _ _ hij]
    exact hc i' j'

lemma filterRowStep_compatInv {A : Board (Fin 9)} (hA : validSudoku A) (i j n : Fin 9) :
    ∀ b j2,
      (compat A b ∧ (b.cells i j).get_unique = some n) →
      (compat A (filterRowStep i j n b j2).1 ∧
        ((filterRowStep i j n b j2).1.cells i j).get_unique = some n) := by
  rintro b j2 ⟨hc, hg⟩
  unfold filterRowStep
  by_cases hj : j = j2
  · rw [if_pos hj]
    exact ⟨hc, hg⟩
  · rw [if_neg hj]
    have hAij : A.cells i j = n := compat_digit_of_get_unique hc hg
    have hAj2 : A.cells i j2 ≠ n := by
      intro he
      exact hj (validSudoku_row_unique hA (by rw [hAij, he]))
    refine ⟨remove_compat_of_ne hc hAj2, ?_⟩
    rw [Board.cells_set_of_ne]
    · exact hg
    · rintro ⟨-, rfl⟩
      exact hj rfl

lemma filterColStep_compatInv {A : Board (Fin 9)} (hA : validSudoku A) (i j n : Fin 9) :
    ∀ b i2,
      (compat A b ∧ (b.cells i j).get_unique = some n) →
      (compat A (filterColStep i j n b i2).1 ∧
        ((filterColStep i j n b i2).1.cells i j).get_unique = some n) := by
  rintro b i2 ⟨hc, hg⟩
  unfold filterColStep
  by_cases hi : i = i2
  · rw [if_pos hi]
    exact ⟨hc, hg⟩
  · rw [if_neg hi]
    have hAij : A.cells i j = n := compat_digit_of_get_unique hc hg
    have hAi2 : A.cells i2 j ≠ n := by
      intro he
      exact hi (validSudoku_col_unique hA (by rw [hAij, he]))
    refine ⟨remove_compat_of_ne hc hAi2, ?_⟩
    rw [Board.cells_set_of_ne]
    · exact hg
    · rintro ⟨rfl, -⟩
      exact hi rfl

lemma filterBlockStep_compatInv {A : Board (Fin 9)} (hA : validSudoku A) (i j n : Fin 9) :
    ∀ b p, p ∈ blockCellList (blockOf i) (blockOf j) →
      (compat A b ∧ (b.cells i j).get_unique = some n) →
      (compat A (filterBlockStep i j n b p).1 ∧
        ((filterBlockStep i j n b p).1.cells i j).get_unique = some n) := by
  rintro b p hp ⟨hc, hg⟩
  unfold filterBlockStep
  by_cases hpc : p.1 = i ∨ p.2 = j
  · rw [if_pos hpc]
    exact ⟨hc, hg⟩
  · rw [if_neg hpc]
    push_neg at hpc
    obtain ⟨hpi, hpj⟩ := hpc
    have hAij : A.cells i j = n := compat_digit_of_get_unique hc hg
    obtain ⟨hb1, hb2⟩ := (mem_blockCellList_iff _ _ _).mp hp
    have hAp : A.cells p.1 p.2 ≠ n := by
      intro he
      have hij := validSudoku_block_unique hA hb1 hb2 (by rw [hAij, he])
      exact hpi hij.1.symm
    refine ⟨remove_compat_of_ne hc hAp, ?_⟩
    rw [Board.cells_set_of_ne]
    · exact hg
    · rintro ⟨rfl, -⟩
      exact hpi rfl

lemma examine_cell_compat {A : Board (Fin 9)} (hA : validSudoku A) :
    ∀ b (p : Fin 9 × Fin 9), compat A b → compat A (examine_cell b p.1 p.2).1 := by
  intro b p hc
  unfold examine_cell
  by_cases hup : (b.cells p.1 p.2).has_update = false
  · rw [if_pos hup]
    exact hc
  · rw [if_neg hup]
    rcases hun : (b.cells p.1 p.2).get_unique with - | n
    · exact hc
    · dsimp only
      have h1 := orFold_pred_mem
        (fun b' => compat A b' ∧ (b'.cells p.1 p.2).get_unique = some n)
        (List.finRange 9)
        (fun b' j2 _ hP => filterRowStep_compatInv hA p.1 p.2 n b' j2 hP)
        (b, false) ⟨hc, hun⟩
      have h2 := orFold_pred_mem
        (fun b' => compat A b' ∧ (b'.cells p.1 p.2).get_unique = some n)
        (List.finRange 9)
        (fun b' i2 _ hP => filterColStep_compatInv hA p.1 p.2 n b' i2 hP)
        ((filter_row b p.1 p.2 n).1, false) h1
      have h3 := orFold_pred_mem
        (fun b' => compat A b' ∧ (b'.cells p.1 p.2).get_unique = some n)
        (blockCellList (blockOf p.1) (blockOf p.2))
        (fun b' q hq hP => filterBlockStep_compatInv hA p.1 p.2 n b' q hq hP)
        ((filter_col (filter_row b p.1 p.2 n).1 p.1 p.2 n).1, false) h2
      exact h3.1

lemma examine_row_compat {A : Board (Fin 9)} (hA : validSudoku A) :
    ∀ b (i : Fin 9), compat A b → compat A (examine_row b i).1 := by
  intro b i hb
  unfold examine_row
  exact orFold_pred _ (fun b n => exRowStep_compat hA i b n) _ _ hb

lemma examine_col_compat {A : Board (Fin 9)} (hA : validSudoku A) :
    ∀ b (j : Fin 9), compat A b → compat A (examine_col b j).1 := by
  intro b j hb
  unfold examine_col
  exact orFold_pred _ (fun b n => exColStep_compat hA j b n) _ _ hb

lemma examine_block_compat {A : Board (Fin 9)} (hA : validSudoku A) :
    ∀ b (p : Fin 3 × Fin 3), compat A b → compat A (examine_block b p.1 p.2).1 := by
  intro b p hb
  unfold examine_block
  exact orFold_pred _ (fun b n => exBlockStep_compat hA p.1 p.2 b n) _ _ hb

lemma sweep_compat {A : Board (Fin 9)} (hA : validSudoku A)
    {b : Board SolvingCell} (h : compat A b) : compat A (sweep b).1 := by
  unfold sweep
  dsimp only
  apply orFold_pred _ (examine_cell_compat hA)
  apply orFold_pred _ (examine_block_compat hA)
  apply orFold_pred _ (examine_col_compat hA)
  apply orFold_pred _ (examine_row_compat hA)
  exact h

lemma propagate_compat {A : Board (Fin 9)} (hA : validSudoku A)
    {b : Board SolvingCell} (h : compat A b) : compat A (propagate b) :=
  propagate_pred (compat A) (fun _ hb => sweep_compat hA hb) b h

lemma compat_pin {A : Board (Fin 9)} {b : Board SolvingCell} {i j : Fin 9}
    (h : compat A b) :
    compat A (b.set i j (SolvingCell.new (some (A.cells i j)))) := by
  intro i' j'
  by_cases hij : i' = i ∧ j' = j
  · rcases hij with ⟨rfl, rfl⟩
    rw [Board.cells_set_same, SolvingCell.new_some_value]
    exact PossibilitySet.uniqueFin_bits_self _
  · rw [Board.cells_set_of_ne _ _ _ _ hij]
    exact h i' j'

/-! ## The cell selection of `case_analysis` -/

lemma selKey_def (c : Nat) : selKey c = if c = 1 then 10 else c := rfl

lemma min_by_key_fold_spec (f : α → Nat) :
    ∀ (l : List α) (a0 a : α),
      l.foldl (fun acc x => match acc with
        | none => some x
        | some a => if f x < f a then some x else some a) (some a0) = some a →
      (a = a0 ∧ ∀ x ∈ l, f a0 ≤ f x) ∨
      (∃ l1 l2, l = l1 ++ a :: l2 ∧ f a < f a0 ∧
        (∀ x ∈ l1, f a < f x) ∧ (∀ x ∈ l2, f a ≤ f x)) := by
  intro l
  induction l with
  | nil =>
    intro a0 a h
    left
    rw [List.foldl_nil] at h
    injection h with h
    refine ⟨h.symm, ?_⟩
    intro x hx
    cases hx
  | cons x xs ih =>
    intro a0 a h
    rw [List.foldl_cons] at h
    dsimp only at h
    by_cases hfx : f x < f a0
    · rw [if_pos hfx] at h
      rcases ih x a h with ⟨rfl, hall⟩ | ⟨l1, l2, heq, hlt, h1, h2⟩
      · right
        exact ⟨[], xs, rfl, hfx, fun y hy => absurd hy (List.not_mem_nil y), hall⟩
      · right
        refine ⟨x :: l1, l2, by rw [heq, List.cons_append], lt_trans hlt hfx, ?_, h2⟩
        intro y hy
        rcases List.mem_cons.mp hy with rfl | hy'
        · exact hlt
        · exact h1 y hy'
    · rw [if_neg hfx] at h
      rcases ih a0 a h with ⟨ha, hall⟩ | ⟨l1, l2, heq, hlt, h1, h2⟩
      · left
        refine ⟨ha, ?_⟩
        intro y hy
        rcases List.mem_cons.mp hy with rfl | hy'
        · exact Nat.le_of_not_lt hfx
        · exact hall y hy'
      · right
        refine ⟨x :: l1, l2, by rw [heq, List.cons_append], hlt, ?_, h2⟩
        intro y hy
        rcases List.mem_cons.mp hy with rfl | hy'
        · exact lt_of_lt_of_le hlt (Nat.le_of_not_lt hfx)
        · exact h1 y hy'

lemma min_by_key_spec (f : α → Nat) (l : List α) (a : α)
    (h : min_by_key f l = some a) :
    ∃ l1 l2, l = l1 ++ a :: l2 ∧ (∀ x ∈ l1, f a < f x) ∧ (∀ x ∈ l2, f a ≤ f x) := by
  unfold min_by_key at h
  cases l with
  | nil => cases h
  | cons x xs =>
    rw [List.foldl_cons] at h
    dsimp only at h
    rcases min_by_key_fold_spec f xs x a h with ⟨rfl, hall⟩ | ⟨l1, l2, heq, hlt, h1, h2⟩
    · refine ⟨[], xs, rfl, ?_, hall⟩
      intro y hy
      cases hy
    · refine ⟨x :: l1, l2, by rw [heq, List.cons_append], ?_, h2⟩
      intro y hy
      rcases List.mem_cons.mp hy with rfl | hy'
      · exact hlt
      · exact h1 y hy'

lemma min_by_key_isSome (f : α → Nat) (x : α) (xs : List α) :
    ∃ a, min_by_key f (x :: xs) = some a := by
  unfold min_by_key
  rw [List.foldl_cons]
  dsimp only
  have haux : ∀ (l : List α) (a0 : α), ∃ a,
      l.foldl (fun acc x => match acc with
        | none => some x
        | some a => if f x < f a then some x else some a) (some a0) = some a := by
    intro l
    induction l with
    | nil =>
      intro a0
      exact ⟨a0, rfl⟩
    | cons y ys ih =>
      intro a0
      rw [List.foldl_cons]
      dsimp only
      by_cases hfy : f y < f a0
      · rw [if_pos hfy]
        exact ih y
      · rw [if_neg hfy]
        exact ih a0
  exact haux xs x

lemma SolvingCell.count_eq (c : SolvingCell) : c.count = c.value.count := rfl

lemma count_le_nine (c : SolvingCell) : c.count ≤ 9 := by
  rw [SolvingCell.count_eq, PossibilitySet.count_eq_length_filter]
  calc ((List.finRange 9).filter _).length ≤ (List.finRange 9).length :=
        List.length_filter_le _ _
    _ = 9 := List.length_finRange 9

lemma chooseIdx_spec (b : Board SolvingCell)
    (hne : ∃ k : Fin 81, (b.cells (rowOf k) (colOf k)).count ≠ 1) :
    (b.cells (rowOf (chooseIdx b)) (colOf (chooseIdx b))).count ≠ 1 ∧
    (∀ k : Fin 81, (b.cells (rowOf k) (colOf k)).count ≠ 1 →
      (b.cells (rowOf (chooseIdx b)) (colOf (chooseIdx b))).count ≤
        (b.cells (rowOf k) (colOf k)).count) ∧
    (∀ k : Fin 81, (b.cells (rowOf k) (colOf k)).count ≠ 1 →
      (b.cells (rowOf k) (colOf k)).count =
        (b.cells (rowOf (chooseIdx b)) (colOf (chooseIdx b))).count →
      chooseIdx b ≤ k) := by
  obtain ⟨k0, hk0⟩ := hne
  have hlen : (List.finRange 81).length = 81 := List.length_finRange 81
  have hsome : ∃ a, min_by_key
      (fun k : Fin 81 => selKey ((b.cells (rowOf k) (colOf k)).count))
      (List.finRange 81) = some a := by
    rcases hl : List.finRange 81 with - | ⟨x, xs⟩
    · rw [hl] at hlen
      cases hlen
    · exact min_by_key_isSome _ x xs
  obtain ⟨a, ha⟩ := hsome
  unfold chooseIdx
  rw [ha]
  dsimp only
  obtain ⟨l1, l2, heq, h1, h2⟩ := min_by_key_spec _ _ _ ha
  have hmemall : ∀ k : Fin 81,
      selKey ((b.cells (rowOf a) (colOf a)).count) ≤
        selKey ((b.cells (rowOf k) (colOf k)).count) := by
    intro k
    have hk : k ∈ List.finRange 81 := List.mem_finRange k
    rw [heq] at hk
    rcases List.mem_append.mp hk with hk1 | hk2
    · exact le_of_lt (h1 k hk1)
    · rcases List.mem_cons.mp hk2 with rfl | hk2'
      · exact le_rfl
      · exact h2 k hk2'
  have hasmall : selKey ((b.cells (rowOf a) (colOf a)).count) ≤ 9 := by
    have hmk := hmemall k0
    rw [selKey_def ((b.cells (rowOf k0) (colOf k0)).count), if_neg hk0] at hmk
    exact le_trans hmk (count_le_nine _)
  have hane : (b.cells (rowOf a) (colOf a)).count ≠ 1 := by
    intro h1a
    rw [selKey_def, if_pos h1a] at hasmall
    omega
  have hkey : selKey ((b.cells (rowOf a) (colOf a)).count) =
      (b.cells (rowOf a) (colOf a)).count := by
    rw [selKey_def, if_neg hane]
  refine ⟨hane, ?_, ?_⟩
  · intro k hk
    have := hmemall k
    rw [hkey, selKey_def, if_neg hk] at this
    exact this
  · intro k hk hkeq
    -- if k were strictly before a in finRange, its key would be strictly larger
    by_contra hlt
    push_neg at hlt
    -- hlt : k < a; k is in l1 since finRange is sorted
    have hk' : k ∈ List.finRange 81 := List.mem_finRange k
    rw [heq] at hk'
    have hsorted := List.pairwise_lt_finRange 81
    rw [heq] at hsorted
    rcases List.mem_append.mp hk' with hk1 | hk2
    · have := h1 k hk1
      rw [hkey, selKey_def, if_neg hk] at this
      omega
    · rcases List.mem_cons.mp hk2 with rfl | hk2'
      · exact absurd rfl (ne_of_gt hlt)
      · have hak : a < k := by
          have hpa := (List.pairwise_append.mp hsorted).2.1
          exact (List.pairwise_cons.mp hpa).1 k hk2'
        exact absurd hak (not_lt_of_gt hlt)

/-! ## Unfolding the search -/

lemma flatMap_attach_val {α β : Type} (l : List α) (F : α → List β) :
    l.attach.flatMap (fun x => F x.1) = l.flatMap F := by
  conv_rhs => rw [← List.attach_map_subtype_val l]
  rw [List.flatMap_map]

set_option maxHeartbeats 1000000 in
lemma case_analysis_eq (b : Board SolvingCell) :
    case_analysis b =
      ((b.cells (rowOf (chooseIdx b)) (colOf (chooseIdx b))).iter).flatMap
        (fun n =>
          if b = b.set (rowOf (chooseIdx b)) (colOf (chooseIdx b))
              (SolvingCell.new (some n)) then []
          else solve (b.set (rowOf (chooseIdx b)) (colOf (chooseIdx b))
              (SolvingCell.new (some n)))) := by
  rw [case_analysis]
  exact flatMap_attach_val _ (fun n =>
    if b = b.set (rowOf (chooseIdx b)) (colOf (chooseIdx b))
        (SolvingCell.new (some n)) then []
    else solve (b.set (rowOf (chooseIdx b)) (colOf (chooseIdx b))
        (SolvingCell.new (some n))))

lemma solve_eq (b : Board SolvingCell) :
    solve b = ((propagate b).to_solution).elim
      (case_analysis (propagate b)) (fun s => [s]) := by
  rw [solve]

lemma cellIdx_lt (i j : Fin 9) : i.val * 9 + j.val < 81 := by
  have hi := i.isLt
  have hj := j.isLt
  omega

/-- Row-major index of a coordinate pair. -/
def cellIdx (i j : Fin 9) : Fin 81 := ⟨i.val * 9 + j.val, cellIdx_lt i j⟩

lemma rowOf_cellIdx (i j : Fin 9) : rowOf (cellIdx i j) = i := by
  apply Fin.ext
  show (i.val * 9 + j.val) / 9 = i.val
  have hj := j.isLt
  omega

lemma colOf_cellIdx (i j : Fin 9) : colOf (cellIdx i j) = j := by
  apply Fin.ext
  show (i.val * 9 + j.val) % 9 = j.val
  have hj := j.isLt
  omega

lemma exists_nonsingleton_of_to_solution_none {b : Board SolvingCell}
    (h : b.to_solution = none) :
    ∃ k : Fin 81, (b.cells (rowOf k) (colOf k)).count ≠ 1 := by
  have hns : ¬ (b.to_solution.isSome = true) := by
    rw [h]
    simp
  rw [to_solution_isSome_iff] at hns
  push_neg at hns
  obtain ⟨i, j, hij⟩ := hns
  refine ⟨cellIdx i j, ?_⟩
  rw [rowOf_cellIdx, colOf_cellIdx]
  exact hij

lemma count_flatMap {α β : Type} [DecidableEq β] (l : List α) (g : α → List β) (x : β) :
    ((l.flatMap g).count x) = (l.map (fun a => (g a).count x)).sum := by
  induction l with
  | nil => rfl
  | cons y ys ih =>
    rw [List.flatMap_cons, List.count_append, List.map_cons, List.sum_cons, ih]

lemma sum_map_eq_one {α : Type} {l : List α} {F : α → Nat} {a : α}
    (hmem : a ∈ l) (hnd : l.Nodup) (h1 : F a = 1)
    (h0 : ∀ x ∈ l, x ≠ a → F x = 0) : (l.map F).sum = 1 := by
  induction l with
  | nil => cases hmem
  | cons x xs ih =>
    rw [List.map_cons, List.sum_cons]
    rcases List.mem_cons.mp hmem with rfl | hmem'
    · rw [h1]
      have hz : (xs.map F).sum = 0 := by
        apply List.sum_eq_zero
        intro y hy
        rw [List.mem_map] at hy
        obtain ⟨z, hz, rfl⟩ := hy
        exact h0 z (List.mem_cons_of_mem _ hz)
          (fun he => (List.nodup_cons.mp hnd).1 (he ▸ hz))
      rw [hz]
    · have hxa : x ≠ a := by
        intro he
        exact (List.nodup_cons.mp hnd).1 (he ▸ hmem')
      rw [h0 x (List.mem_cons_self ..) hxa,
        ih hmem' (List.nodup_cons.mp hnd).2 (fun y hy => h0 y (List.mem_cons_of_mem _ hy))]

/-! ## Soundness and completeness of the search -/

lemma count_new_some (n : Fin 9) : (SolvingCell.new (some n)).count = 1 := by
  rw [SolvingCell.count_eq, SolvingCell.new_some_value]
  exact PossibilitySet.count_uniqueFin n

lemma solve_sound_aux :
    ∀ (m : Nat) (b : Board SolvingCell), boardWeight b ≤ m →
      cleanInv b → ∀ s ∈ solve b, validSudoku s ∧ compat s b := by
  intro m
  induction m using Nat.strong_induction_on with
  | _ m ih =>
    intro b hw hinv s hs
    rw [solve_eq] at hs
    have hinvp : cleanInv (propagate b) := propagate_cleanInv hinv
    have hbelow : (propagate b).Below b := propagate_below b
    have hfix : sweep (propagate b) = (propagate b, false) := propagate_fixed b
    rcases hsol : (propagate b).to_solution with - | s0
    · rw [hsol] at hs
      rw [Option.elim] at hs
      rw [case_analysis_eq] at hs
      rw [List.mem_flatMap] at hs
      obtain ⟨n, hn, hsn⟩ := hs
      by_cases hne : propagate b = (propagate b).set (rowOf (chooseIdx (propagate b)))
          (colOf (chooseIdx (propagate b))) (SolvingCell.new (some n))
      · rw [if_pos hne] at hsn
        cases hsn
      · rw [if_neg hne] at hsn
        have hbits : ((propagate b).cells (rowOf (chooseIdx (propagate b)))
            (colOf (chooseIdx (propagate b)))).value.bits n = true :=
          (PossibilitySet.mem_iter _ _).mp hn
        have hpinb := pin_below hbits
        have hwlt : boardWeight ((propagate b).set (rowOf (chooseIdx (propagate b)))
            (colOf (chooseIdx (propagate b))) (SolvingCell.new (some n))) <
            boardWeight (propagate b) :=
          boardWeight_lt_of_below_ne hpinb (fun h => hne h.symm)
        have hwle : boardWeight (propagate b) ≤ boardWeight b :=
          boardWeight_le_of_below hbelow
        have hrec := ih (boardWeight ((propagate b).set (rowOf (chooseIdx (propagate b)))
            (colOf (chooseIdx (propagate b))) (SolvingCell.new (some n)))) (by omega)
            _ le_rfl (pin_cleanInv hinvp) s hsn
        exact ⟨hrec.1, compat_of_below hbelow (compat_of_below hpinb hrec.2)⟩
    · rw [hsol] at hs
      rw [Option.elim] at hs
      have hss : s = s0 := List.mem_singleton.mp hs
      subst hss
      refine ⟨fixed_point_valid hfix hinvp hsol, ?_⟩
      exact compat_of_below hbelow (compat_of_to_solution hsol)

/-- Every solution emitted by `solve` satisfies the Sudoku constraint and
is compatible with the starting board. -/
lemma solve_sound {b : Board SolvingCell} (hinv : cleanInv b) :
    ∀ s ∈ solve b, validSudoku s ∧ compat s b :=
  solve_sound_aux (boardWeight b) b le_rfl hinv

lemma PossibilitySet.count_pos_of_mem {s : PossibilitySet} {n : Fin 9}
    (h : s.bits n = true) : 0 < s.count := by
  rw [count_eq_length_filter]
  exact List.length_pos.mpr
    (List.ne_nil_of_mem (List.mem_filter.mpr ⟨List.mem_finRange n, h⟩))

lemma solve_complete_aux :
    ∀ (m : Nat) (b : Board SolvingCell), boardWeight b ≤ m →
      cleanInv b → ∀ A, validSudoku A → compat A b → (solve b).count A = 1 := by
  intro m
  induction m using Nat.strong_induction_on with
  | _ m ih =>
    intro b hw hinv A hA hcA
    rw [solve_eq]
    have hinvp : cleanInv (propagate b) := propagate_cleanInv hinv
    have hbelow := propagate_below b
    have hcAp : compat A (propagate b) := propagate_compat hA hcA
    have hwle : boardWeight (propagate b) ≤ boardWeight b :=
      boardWeight_le_of_below hbelow
    rcases hsol : (propagate b).to_solution with - | s0
    · rw [Option.elim, case_analysis_eq]
      set bp := propagate b with hbp
      set k := chooseIdx bp with hk
      set ci := rowOf k with hci
      set cj := colOf k with hcj
      have hex := exists_nonsingleton_of_to_solution_none hsol
      obtain ⟨hkne, -, -⟩ := chooseIdx_spec bp hex
      rw [← hk, ← hci, ← hcj] at hkne
      have hbitA : (bp.cells ci cj).value.bits (A.cells ci cj) = true := hcAp ci cj
      have hpos : 0 < (bp.cells ci cj).count := by
        rw [SolvingCell.count_eq]
        exact PossibilitySet.count_pos_of_mem hbitA
      have hcnt2 : 2 ≤ (bp.cells ci cj).count := by omega
      rw [count_flatMap]
      apply sum_map_eq_one (a := A.cells ci cj)
      · exact (PossibilitySet.mem_iter _ _).mpr hbitA
      · exact PossibilitySet.iter_nodup _
      · have hne : bp ≠ bp.set ci cj (SolvingCell.new (some (A.cells ci cj))) := by
          intro he
          have hcells : bp.cells ci cj = SolvingCell.new (some (A.cells ci cj)) := by
            conv_lhs => rw [he]
            rw [Board.cells_set_same]
          have hone : (bp.cells ci cj).count = 1 := by
            rw [hcells]
            exact count_new_some _
          omega
        rw [if_neg hne]
        have hpinb := pin_below hbitA
        have hwlt := boardWeight_lt_of_below_ne hpinb (fun h => hne h.symm)
        exact ih (boardWeight (bp.set ci cj (SolvingCell.new (some (A.cells ci cj)))))
          (by omega) _ le_rfl (pin_cleanInv hinvp) A hA (compat_pin hcAp)
      · intro n hn hnne
        by_cases hne : bp = bp.set ci cj (SolvingCell.new (some n))
        · rw [if_pos hne]
          rfl
        · rw [if_neg hne]
          rw [List.count_eq_zero]
          intro hmem
          have hsound := solve_sound (pin_cleanInv hinvp) A hmem
          have hcompat := hsound.2 ci cj
          rw [Board.cells_set_same, SolvingCell.new_some_value] at hcompat
          have hAn : A.cells ci cj = n := by
            simpa [PossibilitySet.uniqueFin] using hcompat
          exact hnne hAn.symm
    · rw [Option.elim]
      have hAs : A = s0 := compat_eq_of_to_solution hsol hcAp
      rw [← hAs]
      simp

/-- `solve` emits every valid completion of its starting board exactly
once. -/
lemma solve_complete {b : Board SolvingCell} (hinv : cleanInv b)
    {A : Board (Fin 9)} (hA : validSudoku A) (hcA : compat A b) :
    (solve b).count A = 1 :=
  solve_complete_aux (boardWeight b) b le_rfl hinv A hA hcA

/-! ## The initial board of `for_each_solution` -/

/-- The solving board built from the problem's optional clues (the
conversion loop at the head of `for_each_solution`). -/
def initialBoard (problem : Board (Option (Fin 9))) : Board SolvingCell :=
  ⟨fun i j => SolvingCell.new (problem.cells i j)⟩

lemma for_each_solution_eq (problem : Board (Option (Fin 9))) :
    for_each_solution problem = solve (initialBoard problem) := rfl

lemma initialBoard_cleanInv (p : Board (Option (Fin 9))) :
    cleanInv (initialBoard p) := by
  intro i j
  show (SolvingCell.new (p.cells i j)).update = false →
    (SolvingCell.new (p.cells i j)).value = PossibilitySet.FULL
  rcases hp : p.cells i j with - | n
  · intro _
    rfl
  · intro hu
    simp [SolvingCell.new] at hu

lemma initialBoard_compat_iff (p : Board (Option (Fin 9))) (A : Board (Fin 9)) :
    compat A (initialBoard p) ↔ ∀ i j n, p.cells i j = some n → A.cells i j = n := by
  constructor
  · intro h i j n hp
    have hb := h i j
    have hcell : (initialBoard p).cells i j = SolvingCell.new (some n) := by
      show SolvingCell.new (p.cells i j) = _
      rw [hp]
    rw [hcell, SolvingCell.new_some_value] at hb
    simpa [PossibilitySet.uniqueFin] using hb
  · intro h i j
    show (SolvingCell.new (p.cells i j)).value.bits (A.cells i j) = true
    rcases hp : p.cells i j with - | n
    · rfl
    · rw [SolvingCell.new_some_value, h i j n hp]
      exact PossibilitySet.uniqueFin_bits_self n

/-! ## Decomposition of `sweep` into its two techniques -/

lemma sweep_decompose (b : Board SolvingCell) :
    sweep b = ((nakedOnlySweep (hiddenSinglePass b).1).1,
      (hiddenSinglePass b).2 || (nakedOnlySweep (hiddenSinglePass b).1).2) := by
  have hs : sweep b =
      orFold (fun b p => examine_cell b p.1 p.2) allCellList (hiddenSinglePass b) := rfl
  rw [hs]
  rcases h3 : hiddenSinglePass b with ⟨b3, u3⟩
  rw [orFold_init_flag]
  rfl

/-! ## The strict decrease caused by a guess -/

lemma pin_totalCount_lt {b : Board SolvingCell} {i j n : Fin 9}
    (hbit : (b.cells i j).value.bits n = true)
    (h2 : 2 ≤ (b.cells i j).count) :
    totalCount (b.set i j (SolvingCell.new (some n))) < totalCount b := by
  apply Finset.sum_lt_sum
  · intro p _
    exact SolvingCell.count_le_of_below (pin_below hbit p.1 p.2)
  · refine ⟨(i, j), Finset.mem_univ _, ?_⟩
    simp only [Board.cells_set_same]
    rw [count_new_some]
    omega

/-! ## Dirty singletons at a fixed point -/

lemma fixed_point_dirty_singleton {b : Board SolvingCell}
    (hinv : cleanInv b) (hfix : sweep b = (b, false)) (i j : Fin 9) (n : Fin 9)
    (hn : (b.cells i j).get_unique = some n) :
    (b.cells i j).update = true ∧
    (∀ j2, j ≠ j2 → (b.cells i j2).value.bits n = false) ∧
    (∀ i2, i ≠ i2 → (b.cells i2 j).value.bits n = false) ∧
    (∀ p ∈ blockCellList (blockOf i) (blockOf j),
      ¬(p.1 = i ∨ p.2 = j) → (b.cells p.1 p.2).value.bits n = false) := by
  have hdirty : (b.cells i j).update = true := by
    rcases hu : (b.cells i j).update
    · exfalso
      have hfull := hinv i j hu
      have hval := PossibilitySet.eq_uniqueFin_of_get_unique hn
      rw [hval] at hfull
      exact PossibilitySet.uniqueFin_ne_FULL n hfull
    · rfl
  refine ⟨hdirty, ?_⟩
  exact examine_cell_fixed (sweep_fixed_examine_cell hfix (i, j) (mem_allCellList _))
    hdirty hn

/-! ## Guard-free branch equation for `case_analysis` -/

lemma flatMap_congr_mem {α β : Type} {l : List α} {f g : α → List β}
    (h : ∀ x ∈ l, f x = g x) : l.flatMap f = l.flatMap g := by
  induction l with
  | nil => rfl
  | cons x xs ih =>
    rw [List.flatMap_cons, List.flatMap_cons, h x (List.mem_cons_self ..),
      ih (fun y hy => h y (List.mem_cons_of_mem _ hy))]

lemma case_analysis_branches {b : Board SolvingCell}
    (hne1 : (b.cells (rowOf (chooseIdx b)) (colOf (chooseIdx b))).count ≠ 1) :
    case_analysis b =
      ((b.cells (rowOf (chooseIdx b)) (colOf (chooseIdx b))).iter).flatMap
        (fun n => solve (b.set (rowOf (chooseIdx b)) (colOf (chooseIdx b))
          (SolvingCell.new (some n)))) := by
  rw [case_analysis_eq]
  apply flatMap_congr_mem
  intro n hn
  have hbit : (b.cells (rowOf (chooseIdx b)) (colOf (chooseIdx b))).value.bits n = true :=
    (PossibilitySet.mem_iter _ _).mp hn
  have hpos : 0 < (b.cells (rowOf (chooseIdx b)) (colOf (chooseIdx b))).count := by
    rw [SolvingCell.count_eq]
    exact PossibilitySet.count_pos_of_mem hbit
  have hne : b ≠ b.set (rowOf (chooseIdx b)) (colOf (chooseIdx b))
      (SolvingCell.new (some n)) := by
    intro he
    have hcells : b.cells (rowOf (chooseIdx b)) (colOf (chooseIdx b)) =
        SolvingCell.new (some n) := by
      have hc := congrArg (fun bb : Board SolvingCell =>
        bb.cells (rowOf (chooseIdx b)) (colOf (chooseIdx b))) he
      simp only at hc
      rw [Board.cells_set_same] at hc
      exact hc
    have hone := count_new_some n
    rw [← hcells] at hone
    exact hne1 hone
  rw [if_neg hne]

lemma pin_update_monotone (b : Board SolvingCell) (i j n i' j' : Fin 9)
    (h : (b.cells i' j').update = true) :
    ((b.set i j (SolvingCell.new (some n))).cells i' j').update = true := by
  by_cases hij : i' = i ∧ j' = j
  · rcases hij with ⟨rfl, rfl⟩
    rw [Board.cells_set_same]
    rfl
  · rw [Board.cells_set_of_ne _ _ _ _ hij]
    exact h

/-! ## Concrete boards for witnesses and the counterexample -/

/-- A board with a hidden single but with no pending update anywhere:
in row 0, digit 0 is possible only in cell (0,0), which still has two
possibilities; no cell is dirty. -/
def hiddenSingleBoard : Board SolvingCell :=
  ⟨fun i j =>
    if i = 0 then
      if j = 0 then ⟨⟨fun n => decide (n.val ≤ 1)⟩, false, false⟩
      else ⟨⟨fun n => decide (1 ≤ n.val)⟩, false, false⟩
    else SolvingCell.new none⟩

/-- The all-blank solving board. -/
def fullBoard : Board SolvingCell := ⟨fun _ _ => SolvingCell.new none⟩

/-- A solving board with the single clue 0 at cell (0,0). -/
def oneClueBoard : Board SolvingCell :=
  ⟨fun i j => SolvingCell.new (if i = 0 ∧ j = 0 then some 0 else none)⟩

/-- A concrete valid Sudoku grid (the shifted-rows pattern). -/
def A0 : Board (Fin 9) :=
  ⟨fun i j => ⟨(3 * i.val + i.val / 3 + j.val) % 9, by omega⟩⟩

/-- The problem whose 81 clues are exactly `A0`. -/
def solvedProblem : Board (Option (Fin 9)) := ⟨fun i j => some (A0.cells i j)⟩

/-- The problem with no clues at all. -/
def emptyProblem : Board (Option (Fin 9)) := ⟨fun _ _ => none⟩

/-- A sweep fixed point with one dirty singleton: cell (0,0) is pinned to
digit 0, every cell sharing its row, column or block has already lost
digit 0 (and is dirty), everything else is an untouched blank cell. -/
def pinnedBoard : Board SolvingCell :=
  ⟨fun i j =>
    if i = 0 ∧ j = 0 then ⟨⟨fun n => decide (n.val = 0)⟩, true, true⟩
    else if i = 0 ∨ j = 0 ∨ (i.val < 3 ∧ j.val < 3) then
      ⟨⟨fun n => decide (1 ≤ n.val)⟩, true, false⟩
    else SolvingCell.new none⟩

/-! ## The claims -/

/-- Claim C1: every solution board passed to the callback by
`for_each_solution` satisfies the full Sudoku constraint — each row, each
column and each 3x3 block contains each of the 9 digits exactly once —
and at every cell where the input problem holds a clue `some n`, the
emitted board holds exactly `n`. -/
theorem sudoku_solutions_sound :
    ∀ problem : Board (Option (Fin 9)),
      (for_each_solution problem).Forall (fun s =>
        validSudoku s ∧ ∀ i j n, problem.cells i j = some n → s.cells i j = n) := by
  intro p
  rw [List.forall_iff_forall_mem]
  intro s hs
  rw [for_each_solution_eq] at hs
  have h := solve_sound (initialBoard_cleanInv p) s hs
  exact ⟨h.1, (initialBoard_compat_iff p s).mp h.2⟩

/-- Claim C2: for every problem and every complete digit assignment that
satisfies all row/column/block uniqueness constraints and agrees with
every given clue, `for_each_solution` emits that assignment exactly once:
the search is exhaustive and does not stop after the first solution. -/
theorem sudoku_solutions_complete :
    ∀ (problem : Board (Option (Fin 9))) (A : Board (Fin 9)),
      validSudoku A →
      (∀ i j n, problem.cells i j = some n → A.cells i j = n) →
      (for_each_solution problem).count A = 1 := by
  intro p A hA hag
  rw [for_each_solution_eq]
  exact solve_complete (initialBoard_cleanInv p) hA ((initialBoard_compat_iff p A).mpr hag)

theorem sudoku_solutions_complete_witness :
    (for_each_solution emptyProblem).count A0 = 1 :=
  sudoku_solutions_complete emptyProblem A0 (by unfold validSudoku; decide) (by decide)

/-- Claim C3, counterexample: a sweep pass is not only naked-single
elimination.  On `hiddenSingleBoard` no cell has a pending update, so the
pass claim C3 describes (`nakedOnlySweep`) does nothing, yet the source's
`sweep` performs a hidden-single assignment and reports an update. -/
theorem sweep_not_naked_only :
    ¬ (sweep hiddenSingleBoard = nakedOnlySweep hiddenSingleBoard) := by
  intro h
  have h1 : (sweep hiddenSingleBoard).2 = true := by decide
  have h2 : (nakedOnlySweep hiddenSingleBoard).2 = false := by decide
  rw [h, h2] at h1
  cases h1

/-- Claim C3, amended: each single sweep pass applies hidden-single
assignment over every row, column and block (`examine_row`, `examine_col`,
`examine_block`) followed by naked-single elimination for every
pending-update singleton cell (`examine_cell`), and it returns whether any
assignment or elimination occurred — equivalently, whether the pass
changed the board. -/
theorem sweep_two_techniques :
    ∀ b : Board SolvingCell,
      sweep b = ((nakedOnlySweep (hiddenSinglePass b).1).1,
        (hiddenSinglePass b).2 || (nakedOnlySweep (hiddenSinglePass b).1).2) ∧
      ((sweep b).2 = true ↔ (sweep b).1 ≠ b) :=
  fun b => ⟨sweep_decompose b, sweep_flag_iff b⟩

/-- Claim C4: the propagation loop and the recursive solve terminate
because possibility sets only shrink: a sweep that reports a change
strictly decreases the total number of `true` bits, the loop always
reaches a fixed point, and every guess (pinning a cell with at least two
possibilities) strictly decreases the total bit count as well. -/
theorem solver_termination_measures :
    (∀ b : Board SolvingCell, (sweep b).2 = true →
      totalCount (sweep b).1 < totalCount b) ∧
    (∀ (b : Board SolvingCell) (i j n : Fin 9),
      ((sweep b).1.cells i j).value.bits n = true → (b.cells i j).value.bits n = true) ∧
    (∀ b : Board SolvingCell, sweep (propagate b) = (propagate b, false)) ∧
    (∀ (b : Board SolvingCell) (i j n : Fin 9),
      (b.cells i j).value.bits n = true → 2 ≤ (b.cells i j).count →
      totalCount (b.set i j (SolvingCell.new (some n))) < totalCount b) := by
  refine ⟨sweep_decrease, ?_, propagate_fixed, ?_⟩
  · intro b i j n h
    exact (sweep_below b i j).1 n h
  · intro b i j n hbit h2
    exact pin_totalCount_lt hbit h2

theorem solver_termination_measures_witness :
    totalCount (sweep oneClueBoard).1 < totalCount oneClueBoard ∧
    totalCount (oneClueBoard.set 0 1 (SolvingCell.new (some 0))) < totalCount oneClueBoard :=
  ⟨solver_termination_measures.1 oneClueBoard (by decide),
    solver_termination_measures.2.2.2 oneClueBoard 0 1 0 (by decide) (by decide)⟩

/-- Claim C5: when the board is not fully solved (some cell has a
possibility count other than one), `case_analysis` selects the cell with
the fewest possibilities among the non-singleton cells, breaking ties by
first occurrence in row-major order, and recursively solves one clone of
the board per candidate digit of that cell, the candidates being iterated
in ascending order (the clones are independent boards, so no branch's
mutation is visible in a sibling, and the emission order is a function of
the input board). -/
theorem case_analysis_selection :
    ∀ b : Board SolvingCell,
      (∃ k : Fin 81, (b.cells (rowOf k) (colOf k)).count ≠ 1) →
      ((b.cells (rowOf (chooseIdx b)) (colOf (chooseIdx b))).count ≠ 1 ∧
        (∀ k : Fin 81, (b.cells (rowOf k) (colOf k)).count ≠ 1 →
          (b.cells (rowOf (chooseIdx b)) (colOf (chooseIdx b))).count ≤
            (b.cells (rowOf k) (colOf k)).count) ∧
        (∀ k : Fin 81, (b.cells (rowOf k) (colOf k)).count ≠ 1 →
          (b.cells (rowOf k) (colOf k)).count =
            (b.cells (rowOf (chooseIdx b)) (colOf (chooseIdx b))).count →
          chooseIdx b ≤ k)) ∧
      case_analysis b =
        ((b.cells (rowOf (chooseIdx b)) (colOf (chooseIdx b))).iter).flatMap
          (fun n => solve (b.set (rowOf (chooseIdx b)) (colOf (chooseIdx b))
            (SolvingCell.new (some n)))) ∧
      ((b.cells (rowOf (chooseIdx b)) (colOf (chooseIdx b))).iter).Pairwise (· < ·) := by
  intro b hex
  have hspec := chooseIdx_spec b hex
  exact ⟨hspec, case_analysis_branches hspec.1, PossibilitySet.iter_pairwise _⟩

theorem case_analysis_selection_witness :
    (oneClueBoard.cells (rowOf (chooseIdx oneClueBoard))
      (colOf (chooseIdx oneClueBoard))).count ≠ 1 :=
  (case_analysis_selection oneClueBoard (by decide)).1.1

/-- Claim C6: `to_solution` returns `some` of a digit board iff every one
of the 81 cells' possibility sets is a singleton, in which case each
output cell is that cell's unique digit; it returns `none` otherwise. -/
theorem to_solution_spec :
    ∀ b : Board SolvingCell,
      (b.to_solution.isSome = true ↔ ∀ i j, (b.cells i j).count = 1) ∧
      (∀ s, b.to_solution = some s →
        ∀ i j, (b.cells i j).get_unique = some (s.cells i j)) :=
  fun b => ⟨to_solution_isSome_iff b, fun _ hs => to_solution_eq_some_iff.mp hs⟩

theorem to_solution_spec_witness :
    ((initialBoard solvedProblem).cells 0 0).get_unique = some (A0.cells 0 0) :=
  (to_solution_spec (initialBoard solvedProblem)).2 A0
    (to_solution_eq_some_iff.mpr (by decide)) 0 0

/-- Claim C7: for every cell and in-domain digit `n`: if `n` is absent,
`remove n` returns `false` and leaves the cell (set and dirty flag)
unchanged; if `n` is present, it returns `true`, clears exactly `n` and
sets the dirty flag; removing the same digit twice yields the same set as
removing it once, and only the first call reports a change. -/
theorem remove_spec :
    ∀ (c : SolvingCell) (n : Fin 9),
      (c.value.bits n = false → c.remove n = (c, false)) ∧
      (c.value.bits n = true → (c.remove n).2 = true ∧
        (c.remove n).1.update = true ∧ (c.remove n).1.value.bits n = false ∧
        ∀ k, k ≠ n → (c.remove n).1.value.bits k = c.value.bits k) ∧
      ((c.remove n).1.remove n = ((c.remove n).1, false)) := by
  intro c n
  refine ⟨fun h => SolvingCell.remove_of_not_mem h, fun h => ?_, ?_⟩
  · rw [SolvingCell.remove_of_mem h]
    refine ⟨rfl, rfl, ?_, ?_⟩
    · show (if n = n then false else c.value.bits n) = false
      rw [if_pos rfl]
    · intro k hk
      show (if k = n then false else c.value.bits k) = c.value.bits k
      rw [if_neg hk]
  · cases hbit : c.value.bits n
    · rw [SolvingCell.remove_of_not_mem hbit]
      exact SolvingCell.remove_of_not_mem hbit
    · rw [SolvingCell.remove_of_mem hbit]
      apply SolvingCell.remove_of_not_mem
      show (if n = n then false else c.value.bits n) = false
      rw [if_pos rfl]

theorem remove_spec_witness :
    ((SolvingCell.new none).remove 3).2 = true ∧
    ((SolvingCell.new none).remove 3).1.remove 3 =
      (((SolvingCell.new none).remove 3).1, false) :=
  ⟨((remove_spec (SolvingCell.new none) 3).2.1 (by decide)).1,
    (remove_spec (SolvingCell.new none) 3).2.2⟩

/-- Claim C8: for every `n < 9`, `PossibilitySet.unique n` yields a set
whose only member is `n`; for `n ≥ 9` the call is a fatal precondition
violation (an out-of-bounds array write, modelled as `none`) rather than
any set. -/
theorem unique_spec :
    ∀ n : Nat,
      (n < 9 → ∃ s, PossibilitySet.unique n = some s ∧
        ∀ k : Fin 9, (s.bits k = true ↔ k.val = n)) ∧
      (9 ≤ n → PossibilitySet.unique n = none) := by
  intro n
  constructor
  · intro h
    refine ⟨PossibilitySet.uniqueFin ⟨n, h⟩, ?_, ?_⟩
    · unfold PossibilitySet.unique
      rw [dif_pos h]
    · intro k
      show decide (k = ⟨n, h⟩) = true ↔ k.val = n
      constructor
      · intro hk
        rw [of_decide_eq_true hk]
      · intro hk
        exact decide_eq_true (Fin.ext hk)
  · intro h
    unfold PossibilitySet.unique
    rw [dif_neg (by omega)]

theorem unique_spec_witness :
    (∃ s, PossibilitySet.unique 4 = some s ∧
      ∀ k : Fin 9, (s.bits k = true ↔ k.val = 4)) ∧
    PossibilitySet.unique 12 = none :=
  ⟨(unique_spec 4).1 (by omega), (unique_spec 12).2 (by omega)⟩

/-- Claim C9: for every possibility set, `count` equals the number of
elements produced by `iter`, and the sequence produced by `iter` is
strictly ascending. -/
theorem count_iter_spec :
    ∀ s : PossibilitySet, s.count = s.iter.length ∧ s.iter.Pairwise (· < ·) :=
  fun s => ⟨by rw [PossibilitySet.count_eq_length_filter, PossibilitySet.iter_eq_filter],
    PossibilitySet.iter_pairwise s⟩

/-- Claim C10: the engine never clears a cell's update flag
(`acknowledge` is never invoked): a dirty cell stays dirty through every
sweep and through every guess, and at every sweep fixed point of a
reachable board (one satisfying `cleanInv`) every singleton cell is still
dirty and no peer cell in its row, column or block still admits its
digit — exactly what its last `examine_cell` run verified by reporting no
change. -/
theorem dirty_flag_persistence :
    (∀ (b : Board SolvingCell) (i j : Fin 9), (b.cells i j).update = true →
      ((sweep b).1.cells i j).update = true) ∧
    (∀ (b : Board SolvingCell) (i j n i' j' : Fin 9),
      (b.cells i' j').update = true →
      ((b.set i j (SolvingCell.new (some n))).cells i' j').update = true) ∧
    (∀ b : Board SolvingCell, cleanInv b → sweep b = (b, false) →
      ∀ i j n, (b.cells i j).get_unique = some n →
        (b.cells i j).update = true ∧
        (∀ j2, j ≠ j2 → (b.cells i j2).can_be n = false) ∧
        (∀ i2, i ≠ i2 → (b.cells i2 j).can_be n = false) ∧
        (∀ p ∈ blockCellList (blockOf i) (blockOf j),
          ¬(p.1 = i ∨ p.2 = j) → (b.cells p.1 p.2).can_be n = false)) := by
  refine ⟨?_, pin_update_monotone, ?_⟩
  · intro b i j h
    exact (sweep_below b i j).2.1 h
  · intro b hinv hfix i j n hn
    exact fixed_point_dirty_singleton hinv hfix i j n hn

theorem dirty_flag_persistence_witness :
    ((sweep oneClueBoard).1.cells 0 0).update = true ∧
    (pinnedBoard.cells 0 0).update = true :=
  ⟨dirty_flag_persistence.1 oneClueBoard 0 0 (by decide),
    (dirty_flag_persistence.2.2 pinnedBoard
      (by unfold cleanInv; decide)
      (Prod.ext_iff.mpr
        ⟨sweep_unchanged_of_flag_false (by decide), by decide⟩)
      0 0 0 (by decide)).1⟩
